import Mathlib

/-!
Verification of the `BinaryReader` component of the `ihex` crate
(`src/binary_reader.rs`): a streaming converter from decoded Intel HEX
records to a flat binary byte stream.

The embedding is shallow:

* `Record` mirrors the crate's `Record` enum (the fields that are `u16`/`u32`
  in Rust are modelled as `Nat`; where the code performs 32-bit arithmetic we
  reduce modulo `2^32` exactly where the Rust `u32` operations wrap).
* `BinaryReader` mirrors the struct's fields (minus the wrapped `reader`).
  The record producer (`Reader<R>`, an iterator of `Result<Record, _>`) is
  modelled as a `List (Except String Record)` that is consumed from the
  front; once empty, `next()` keeps yielding `None`, matching the producer
  interface (`next() -> Option<Result<Record, ProducerError>>`).
* The `underflow` field is ghost instrumentation: it is set exactly when the
  unguarded `u32` subtraction `addr - self.base_address` in `update_address`
  would underflow (wrap) in Rust.  It influences nothing else.
* `Read::read(&mut buf)` is modelled by `read`: the mutable byte buffer is
  represented by its length (`space`); the function returns the final
  producer, the final state, the list of bytes written, and the returned
  count `Ok(buf_len - buf.len())`.  `Err(e)` becomes `Except.error` with the
  message built by `format!("Error reading hex file: {e}")`.
-/

deriving instance DecidableEq for Except

/-- 2^32, the modulus of Rust `u32` arithmetic. -/
def u32Mod : Nat := 4294967296

/-- Mirror of `enum Record` (from the `ihex` crate) as consumed by
`BinaryReader`: the record variants of the Intel HEX format. -/
inductive Record where
  | extendedSegmentAddress (addr : Nat)
  | extendedLinearAddress (addr : Nat)
  | data (offset : Nat) (value : List Nat)
  | startSegmentAddress (cs ip : Nat)
  | startLinearAddress (addr : Nat)
  | endOfFile
deriving DecidableEq

/-- Mirror of `enum StartAddress`: the captured entry point. -/
inductive StartAddress where
  | segment (cs ip : Nat)
  | linear (addr : Nat)
deriving DecidableEq

/-- Mirror of `struct BinaryReader` minus the wrapped `reader` (the producer
is passed alongside as a list).  `underflow` is a ghost flag recording
whether the unguarded subtraction in `update_address` ever wrapped. -/
structure BinaryReader where
  record : Option Record
  record_pos : Nat
  base_address : Nat
  address : Nat
  read_bytes : Nat
  start_address : Option StartAddress
  underflow : Bool
deriving DecidableEq

/-- Mirror of `BinaryReader::new`: all-zero initial state. -/
def BinaryReader.new : BinaryReader :=
  { record := none
    record_pos := 0
    base_address := 0
    address := 0
    read_bytes := 0
    start_address := none
    underflow := false }

/-- Mirror of `BinaryReader::update_address`.  The Rust `else` branch is the
unguarded `u32` subtraction `addr - self.base_address`; we model its wrapping
value as `(addr + (2^32 - base)) % 2^32` and record in the ghost `underflow`
flag whether it actually wrapped (`addr < base`). -/
def update_address (s : BinaryReader) (addr : Nat) : BinaryReader :=
  if s.base_address = 0 ∧ s.read_bytes = 0 then
    { s with base_address := addr }
  else
    { s with
        address := (addr + (u32Mod - s.base_address)) % u32Mod
        underflow := if addr < s.base_address then true else s.underflow }

/-- Outcome of one iteration of the `loop` in `Read::read` for the currently
buffered record: either an early `return Ok _` (`ret`, with the bytes written
by this iteration and the space left in the buffer) or fall-through to the
producer pull (`cont`, with the bytes written and the space left). -/
inductive ProcResult where
  | ret (s : BinaryReader) (out : List Nat) (sl : Nat)
  | cont (s : BinaryReader) (out : List Nat) (sp : Nat)

/-- The gap length actually zero-filled by the `Record::Data` arm: the Rust
code fills `min (record_address - read_bytes) space` zero bytes when
`record_address > read_bytes`, and none otherwise. -/
def gapZl (ra rb space : Nat) : Nat :=
  if ra > rb then (if ra - rb ≥ space then space else ra - rb) else 0

/-- `read_bytes` after the gap-filling block of the `Record::Data` arm
(`self.read_bytes += zeroed_len as u32`, a wrapping `u32` add). -/
def gapRb (ra rb space : Nat) : Nat :=
  if ra > rb then (rb + gapZl ra rb space) % u32Mod else rb

/-- The `Record::Data { offset, value }` arm of the `loop` in `Read::read`:
zero-fill any gap (`record_address > read_bytes`), then return if the buffer
is full, copy a buffer-filling prefix of the remaining payload and return, or
copy the whole remaining payload and fall through to the next record. -/
def processData (s : BinaryReader) (offset : Nat) (value : List Nat) (space : Nat) :
    ProcResult :=
  let v := value.drop s.record_pos
  let ra := (s.address + offset) % u32Mod
  let zl := gapZl ra s.read_bytes space
  let rb1 := gapRb ra s.read_bytes space
  let sp1 := space - zl
  if sp1 = 0 then
    .ret { s with read_bytes := rb1 } (List.replicate zl 0) 0
  else if v.length ≥ sp1 then
    .ret { s with
             record_pos := s.record_pos + sp1
             read_bytes := (rb1 + sp1) % u32Mod }
         (List.replicate zl 0 ++ v.take sp1) 0
  else
    .cont { s with
              record := none
              record_pos := 0
              read_bytes := (rb1 + v.length) % u32Mod }
          (List.replicate zl 0 ++ v) (sp1 - v.length)

/-- The `if let Some(ref record) = self.record { match record { ... } }` body
of the `loop` in `Read::read`, for a buffer with `space` bytes of room left.
Each branch mirrors the corresponding arm in `src/binary_reader.rs`. -/
def processRecord (s : BinaryReader) (space : Nat) : ProcResult :=
  match s.record with
  | none => .cont s [] space
  | some (.extendedSegmentAddress addr) =>
      .cont { update_address s ((addr * 16) % u32Mod) with record := none } [] space
  | some (.extendedLinearAddress addr) =>
      .cont { update_address s ((addr * 65536) % u32Mod) with record := none } [] space
  | some (.data offset value) => processData s offset value space
  | some (.startSegmentAddress cs ip) =>
      .cont { s with start_address := some (.segment cs ip), record := none } [] space
  | some (.startLinearAddress addr) =>
      .cont { s with start_address := some (.linear addr), record := none } [] space
  | some .endOfFile =>
      .ret s [] space

/-- Prefix the bytes already written onto the result of the rest of the loop
(bytes written by earlier iterations of the same `read` call come first in
the buffer). -/
def prependOut (out : List Nat)
    (r : Except String (List (Except String Record) × BinaryReader × List Nat × Nat)) :
    Except String (List (Except String Record) × BinaryReader × List Nat × Nat) :=
  match r with
  | .error e => .error e
  | .ok (p', s', out2, sl) => .ok (p', s', out ++ out2, sl)

/-- The `loop` of `Read::read`: process the buffered record; an early
`return` inside the `match` yields as is, and on fall-through the next record
is pulled from the producer — returning `Ok(buf_len - buf.len())` on
exhaustion, `Err` on a producer error, and otherwise buffering the pulled
record and looping.  Returns the remaining producer, the final state, the
bytes written, and the space left unfilled.  (The case split on the producer
is lifted to the top so the recursion is structural; each branch performs the
same record processing first, exactly as the Rust `loop` does.) -/
def readGo : List (Except String Record) → BinaryReader → Nat →
    Except String (List (Except String Record) × BinaryReader × List Nat × Nat)
  | [], s, space =>
    match processRecord s space with
    | .ret s' out sl => .ok ([], s', out, sl)
    | .cont s' out sp' => .ok ([], s', out, sp')
  | .error e :: tl, s, space =>
    match processRecord s space with
    | .ret s' out sl => .ok (.error e :: tl, s', out, sl)
    | .cont _ _ _ => .error ("Error reading hex file: " ++ e)
  | .ok r :: rest, s, space =>
    match processRecord s space with
    | .ret s' out sl => .ok (.ok r :: rest, s', out, sl)
    | .cont s' out sp' => prependOut out (readGo rest { s' with record := some r } sp')

/-- Mirror of `Read::read` for `BinaryReader`: fill a buffer of length `n`.
On success returns the remaining producer, the new state, the bytes written
into the buffer, and the returned count (`Ok(buf_len - buf.len())`). -/
def BinaryReader.read (p : List (Except String Record)) (s : BinaryReader) (n : Nat) :
    Except String (List (Except String Record) × BinaryReader × List Nat × Nat) :=
  match readGo p s n with
  | .error e => .error e
  | .ok (p', s', out, sl) => .ok (p', s', out, n - sl)

/-- A sequence of `read` calls with the given buffer sizes; collects the
bytes written by each call and the count returned by each call. -/
def fillMany (ns : List Nat) (p : List (Except String Record)) (s : BinaryReader) :
    Except String (List (Except String Record) × BinaryReader × List (List Nat) × List Nat) :=
  match ns with
  | [] => .ok (p, s, [], [])
  | n :: ns' =>
    match BinaryReader.read p s n with
    | .error e => .error e
    | .ok (p', s', out, c) =>
      match fillMany ns' p' s' with
      | .error e => .error e
      | .ok (p'', s'', outs, cs) => .ok (p'', s'', out :: outs, c :: cs)

/-- Prefix bytes already written onto a loop-body outcome: used to state that
a full-buffer return of the `Data` arm composes with a follow-up call on the
leftover state. -/
def procCompose (out : List Nat) : ProcResult → ProcResult
  | .ret s o t => .ret s (out ++ o) t
  | .cont s o t => .cont s (out ++ o) t

/-- Record stream for the chunk-invariance counterexample: a segment base of
`0x10`, a linear offset record, and an 18-byte payload whose record address is
`2^32 - 17` — so a full copy pushes `read_bytes` across the `u32` boundary. -/
def cexStream : List (Except String Record) :=
  [Except.ok (Record.extendedSegmentAddress 1),
   Except.ok (Record.extendedLinearAddress 65535),
   Except.ok (Record.data 65535 (List.replicate 18 1))]

/-- The converter state after the two address records of `cexStream` have
been consumed and the `Data` record has been buffered. -/
def cexS : BinaryReader :=
  { record := some (Record.data 65535 (List.replicate 18 1))
    record_pos := 0
    base_address := 16
    address := 4294901744
    read_bytes := 0
    start_address := none
    underflow := false }

/-- Contiguity (for claim C1): each `Data` record sits at the offset equal to
the running total of the payload lengths before it, starting from `b`. -/
def contigB (b : Nat) (recs : List (Nat × List Nat)) : Bool :=
  match recs with
  | [] => true
  | (o, v) :: rest => o = b && contigB (b + v.length) rest

/-- Total payload length of a list of (offset, payload) data records. -/
def totalLen (recs : List (Nat × List Nat)) : Nat :=
  (recs.map (fun r => r.2.length)).sum

/-- Concatenation of the payloads of a list of (offset, payload) records. -/
def payloadConcat (recs : List (Nat × List Nat)) : List Nat :=
  (recs.map Prod.snd).flatten

/-- Effect of processing one record on the captured start address
(start-address records overwrite it; all other records leave it alone). -/
def updStart (sa : Option StartAddress) (r : Record) : Option StartAddress :=
  match r with
  | .startSegmentAddress cs ip => some (.segment cs ip)
  | .startLinearAddress a => some (.linear a)
  | _ => sa

/-- `updStart` lifted to an optional (possibly absent) buffered record. -/
def updStartO (sa : Option StartAddress) (o : Option Record) : Option StartAddress :=
  match o with
  | some r => updStart sa r
  | none => sa

/-! ### Branch-level characterization of `processData` -/

theorem u32Mod_pos : 0 < u32Mod := by decide

theorem gapZl_ge {ra rb sp : Nat} (h : rb < ra) (h2 : sp ≤ ra - rb) :
    gapZl ra rb sp = sp := by
  unfold gapZl
  rw [if_pos h]
  split <;> omega

theorem gapZl_lt {ra rb sp : Nat} (h : rb < ra) (h2 : ra - rb < sp) :
    gapZl ra rb sp = ra - rb := by
  unfold gapZl
  rw [if_pos h]
  split <;> omega

theorem gapZl_none {ra rb sp : Nat} (h : ra ≤ rb) : gapZl ra rb sp = 0 := by
  unfold gapZl
  rw [if_neg (by omega)]

theorem gapZl_le_gap {ra rb sp : Nat} : gapZl ra rb sp ≤ ra - rb := by
  unfold gapZl
  split
  case isTrue => split <;> omega
  case isFalse => omega

theorem gapRb_gap {ra rb sp : Nat} (h : rb < ra) (hra : ra < u32Mod) :
    gapRb ra rb sp = rb + gapZl ra rb sp := by
  unfold gapRb
  rw [if_pos h, Nat.mod_eq_of_lt]
  have := @gapZl_le_gap ra rb sp
  omega

theorem gapRb_none {ra rb sp : Nat} (h : ra ≤ rb) : gapRb ra rb sp = rb := by
  unfold gapRb
  rw [if_neg (by omega)]

/-- Gap branch, buffer exhausted by the zero fill: exactly `sp` zeros. -/
theorem processData_gap_all {s : BinaryReader} {o : Nat} {v : List Nat} {sp : Nat}
    (hgap : s.read_bytes < (s.address + o) % u32Mod)
    (hsp : sp ≤ (s.address + o) % u32Mod - s.read_bytes) :
    processData s o v sp =
      .ret { s with read_bytes := s.read_bytes + sp } (List.replicate sp 0) 0 := by
  have h2 : (s.address + o) % u32Mod < u32Mod := Nat.mod_lt _ u32Mod_pos
  unfold processData
  dsimp only
  rw [gapRb_gap hgap h2, gapZl_ge hgap hsp]
  rw [if_pos (by omega : sp - sp = 0)]

/-- No gap, zero space: nothing happens. -/
theorem processData_zero {s : BinaryReader} {o : Nat} {v : List Nat}
    (hgap : (s.address + o) % u32Mod ≤ s.read_bytes) :
    processData s o v 0 = .ret s [] 0 := by
  unfold processData
  dsimp only
  rw [gapRb_none hgap, gapZl_none hgap]
  rw [if_pos (by omega : 0 - 0 = 0)]
  simp

/-- No gap, payload at least fills the buffer: copy a prefix and return. -/
theorem processData_nogap_fill {s : BinaryReader} {o : Nat} {v : List Nat} {sp : Nat}
    (hgap : (s.address + o) % u32Mod ≤ s.read_bytes) (hsp : 0 < sp)
    (hlen : sp ≤ (v.drop s.record_pos).length) :
    processData s o v sp =
      .ret { s with
               record_pos := s.record_pos + sp
               read_bytes := (s.read_bytes + sp) % u32Mod }
        ((v.drop s.record_pos).take sp) 0 := by
  unfold processData
  dsimp only
  rw [gapRb_none hgap, gapZl_none hgap]
  rw [if_neg (by omega : ¬(sp - 0 = 0))]
  rw [if_pos (by omega : (v.drop s.record_pos).length ≥ sp - 0)]
  simp

/-- No gap, payload shorter than the buffer: copy it all and fall through. -/
theorem processData_nogap_cont {s : BinaryReader} {o : Nat} {v : List Nat} {sp : Nat}
    (hgap : (s.address + o) % u32Mod ≤ s.read_bytes)
    (hlen : (v.drop s.record_pos).length < sp) :
    processData s o v sp =
      .cont { s with
                record := none
                record_pos := 0
                read_bytes := (s.read_bytes + (v.drop s.record_pos).length) % u32Mod }
        (v.drop s.record_pos) (sp - (v.drop s.record_pos).length) := by
  unfold processData
  dsimp only
  rw [gapRb_none hgap, gapZl_none hgap]
  rw [if_neg (by omega : ¬(sp - 0 = 0))]
  rw [if_neg (by omega : ¬((v.drop s.record_pos).length ≥ sp - 0))]
  simp

/-- Gap strictly smaller than the buffer, then a buffer-filling payload copy. -/
theorem processData_gap_fill {s : BinaryReader} {o : Nat} {v : List Nat} {sp : Nat}
    (hgap : s.read_bytes < (s.address + o) % u32Mod)
    (hsp : (s.address + o) % u32Mod - s.read_bytes < sp)
    (hlen : sp - ((s.address + o) % u32Mod - s.read_bytes) ≤ (v.drop s.record_pos).length) :
    processData s o v sp =
      .ret { s with
               record_pos := s.record_pos + (sp - ((s.address + o) % u32Mod - s.read_bytes))
               read_bytes := ((s.address + o) % u32Mod
                 + (sp - ((s.address + o) % u32Mod - s.read_bytes))) % u32Mod }
        (List.replicate ((s.address + o) % u32Mod - s.read_bytes) 0
          ++ (v.drop s.record_pos).take (sp - ((s.address + o) % u32Mod - s.read_bytes))) 0 := by
  have h2 : (s.address + o) % u32Mod < u32Mod := Nat.mod_lt _ u32Mod_pos
  unfold processData
  dsimp only
  rw [gapRb_gap hgap h2, gapZl_lt hgap hsp]
  rw [if_neg (by omega : ¬(sp - ((s.address + o) % u32Mod - s.read_bytes) = 0))]
  rw [if_pos (by omega :
    (v.drop s.record_pos).length ≥ sp - ((s.address + o) % u32Mod - s.read_bytes))]
  have hrb : s.read_bytes + ((s.address + o) % u32Mod - s.read_bytes)
      = (s.address + o) % u32Mod := by omega
  rw [hrb]

/-- Gap strictly smaller than the buffer, whole payload copied, fall through. -/
theorem processData_gap_cont {s : BinaryReader} {o : Nat} {v : List Nat} {sp : Nat}
    (hgap : s.read_bytes < (s.address + o) % u32Mod)
    (hsp : (s.address + o) % u32Mod - s.read_bytes < sp)
    (hlen : (v.drop s.record_pos).length < sp - ((s.address + o) % u32Mod - s.read_bytes)) :
    processData s o v sp =
      .cont { s with
                record := none
                record_pos := 0
                read_bytes := ((s.address + o) % u32Mod
                  + (v.drop s.record_pos).length) % u32Mod }
        (List.replicate ((s.address + o) % u32Mod - s.read_bytes) 0 ++ v.drop s.record_pos)
        (sp - ((s.address + o) % u32Mod - s.read_bytes) - (v.drop s.record_pos).length) := by
  have h2 : (s.address + o) % u32Mod < u32Mod := Nat.mod_lt _ u32Mod_pos
  unfold processData
  dsimp only
  rw [gapRb_gap hgap h2, gapZl_lt hgap hsp]
  rw [if_neg (by omega : ¬(sp - ((s.address + o) % u32Mod - s.read_bytes) = 0))]
  rw [if_neg (by omega :
    ¬((v.drop s.record_pos).length ≥ sp - ((s.address + o) % u32Mod - s.read_bytes)))]
  have hrb : s.read_bytes + ((s.address + o) % u32Mod - s.read_bytes)
      = (s.address + o) % u32Mod := by omega
  rw [hrb]

/-! ### Bookkeeping invariants of the read loop -/

theorem gapZl_le_sp {ra rb sp : Nat} : gapZl ra rb sp ≤ sp := by
  unfold gapZl
  split
  case isTrue => split <;> omega
  case isFalse => omega

theorem gapRb_eq {ra rb sp : Nat} (hra : ra < u32Mod) :
    gapRb ra rb sp = rb + gapZl ra rb sp := by
  by_cases h : rb < ra
  case pos => exact gapRb_gap h hra
  case neg =>
    rw [gapRb_none (by omega), gapZl_none (by omega)]
    omega

/-- Every branch of `processData` writes exactly the space it uses up. -/
theorem processData_len (s : BinaryReader) (o : Nat) (v : List Nat) (sp : Nat) :
    (match processData s o v sp with
     | .ret _ out sl => out.length + sl
     | .cont _ out sp' => out.length + sp') = sp := by
  rcases Nat.lt_or_ge s.read_bytes ((s.address + o) % u32Mod) with hgap | hgap
  case inl =>
    rcases le_or_lt sp ((s.address + o) % u32Mod - s.read_bytes) with hsp | hsp
    case inl =>
      rw [processData_gap_all hgap hsp]
      simp
    case inr =>
      rcases le_or_lt (sp - ((s.address + o) % u32Mod - s.read_bytes))
          ((v.drop s.record_pos).length) with hlen | hlen
      case inl =>
        rw [processData_gap_fill hgap hsp hlen]
        simp only [List.length_append, List.length_replicate, List.length_take, Nat.add_zero]
        rw [Nat.min_eq_left hlen]
        exact Nat.add_sub_cancel' (Nat.le_of_lt hsp)
      case inr =>
        rw [processData_gap_cont hgap hsp (by omega)]
        simp only [List.length_append, List.length_replicate]
        change (s.address + o) % u32Mod - s.read_bytes + (v.drop s.record_pos).length
          + (sp - ((s.address + o) % u32Mod - s.read_bytes) - (v.drop s.record_pos).length) = sp
        omega
  case inr =>
    by_cases hsp0 : sp = 0
    case pos =>
      subst hsp0
      rw [processData_zero hgap]
      simp
    case neg =>
      rcases le_or_lt sp ((v.drop s.record_pos).length) with hlen | hlen
      case inl =>
        rw [processData_nogap_fill hgap (Nat.pos_of_ne_zero hsp0) hlen]
        simp only [List.length_take, Nat.add_zero]
        exact Nat.min_eq_left hlen
      case inr =>
        rw [processData_nogap_cont hgap hlen]
        simp only []
        exact Nat.add_sub_cancel' (Nat.le_of_lt hlen)

/-- Every branch of the loop body writes exactly the space it uses up. -/
theorem processRecord_len (s : BinaryReader) (sp : Nat) :
    (match processRecord s sp with
     | .ret _ out sl => out.length + sl
     | .cont _ out sp' => out.length + sp') = sp := by
  unfold processRecord
  cases hr : s.record with
  | none => simp
  | some r =>
    cases r with
    | data o v => exact processData_len s o v sp
    | extendedSegmentAddress a => simp
    | extendedLinearAddress a => simp
    | startSegmentAddress cs ip => simp
    | startLinearAddress a => simp
    | endOfFile => simp

theorem processRecord_ret_len {s : BinaryReader} {sp : Nat} {s' : BinaryReader}
    {out : List Nat} {sl : Nat} (h : processRecord s sp = .ret s' out sl) :
    out.length + sl = sp := by
  have := processRecord_len s sp
  rw [h] at this
  exact this

theorem processRecord_cont_len {s : BinaryReader} {sp : Nat} {s' : BinaryReader}
    {out : List Nat} {sp' : Nat} (h : processRecord s sp = .cont s' out sp') :
    out.length + sp' = sp := by
  have := processRecord_len s sp
  rw [h] at this
  exact this

/-- If the run never emits `2^32` total bytes, `read_bytes` advances by
exactly the number of bytes written, in every branch of `processData`. -/
theorem processData_rb (s : BinaryReader) (o : Nat) (v : List Nat) (sp : Nat)
    (hw : s.read_bytes + sp < u32Mod) :
    (match processData s o v sp with
     | .ret s1 out _ => s1.read_bytes = s.read_bytes + out.length
     | .cont s1 out _ => s1.read_bytes = s.read_bytes + out.length) := by
  have hra : (s.address + o) % u32Mod < u32Mod := Nat.mod_lt _ u32Mod_pos
  rcases Nat.lt_or_ge s.read_bytes ((s.address + o) % u32Mod) with hgap | hgap
  case inl =>
    rcases le_or_lt sp ((s.address + o) % u32Mod - s.read_bytes) with hsp | hsp
    case inl =>
      rw [processData_gap_all hgap hsp]
      simp
    case inr =>
      rcases le_or_lt (sp - ((s.address + o) % u32Mod - s.read_bytes))
          ((v.drop s.record_pos).length) with hlen | hlen
      case inl =>
        rw [processData_gap_fill hgap hsp hlen]
        simp only [List.length_append, List.length_replicate, List.length_take]
        rw [Nat.mod_eq_of_lt (by omega), Nat.min_eq_left hlen]
        omega
      case inr =>
        rw [processData_gap_cont hgap hsp (by omega)]
        simp only [List.length_append, List.length_replicate]
        rw [Nat.mod_eq_of_lt (by omega)]
        omega
  case inr =>
    by_cases hsp0 : sp = 0
    case pos =>
      subst hsp0
      rw [processData_zero hgap]
      simp
    case neg =>
      rcases le_or_lt sp ((v.drop s.record_pos).length) with hlen | hlen
      case inl =>
        rw [processData_nogap_fill hgap (Nat.pos_of_ne_zero hsp0) hlen]
        simp only [List.length_take]
        rw [Nat.mod_eq_of_lt (by omega), Nat.min_eq_left hlen]
      case inr =>
        rw [processData_nogap_cont hgap hlen]
        simp only []
        rw [Nat.mod_eq_of_lt (by omega)]

theorem processRecord_rb (s : BinaryReader) (sp : Nat)
    (hw : s.read_bytes + sp < u32Mod) :
    (match processRecord s sp with
     | .ret s1 out _ => s1.read_bytes = s.read_bytes + out.length
     | .cont s1 out _ => s1.read_bytes = s.read_bytes + out.length) := by
  unfold processRecord
  cases hr : s.record with
  | none => simp
  | some r =>
    cases r with
    | data o v => exact processData_rb s o v sp hw
    | extendedSegmentAddress a =>
      simp only []
      unfold update_address
      split <;> simp
    | extendedLinearAddress a =>
      simp only []
      unfold update_address
      split <;> simp
    | startSegmentAddress cs ip => simp
    | startLinearAddress a => simp
    | endOfFile => simp

theorem processRecord_ret_rb {s : BinaryReader} {sp : Nat} {s' : BinaryReader}
    {out : List Nat} {sl : Nat} (h : processRecord s sp = .ret s' out sl)
    (hw : s.read_bytes + sp < u32Mod) : s'.read_bytes = s.read_bytes + out.length := by
  have := processRecord_rb s sp hw
  rw [h] at this
  exact this

theorem processRecord_cont_rb {s : BinaryReader} {sp : Nat} {s' : BinaryReader}
    {out : List Nat} {sp' : Nat} (h : processRecord s sp = .cont s' out sp')
    (hw : s.read_bytes + sp < u32Mod) : s'.read_bytes = s.read_bytes + out.length := by
  have := processRecord_rb s sp hw
  rw [h] at this
  exact this

/-- `readGo` writes exactly the space it uses: bytes written plus space left
equals the space supplied. -/
theorem readGo_len {p : List (Except String Record)} {s : BinaryReader} {sp : Nat}
    {p' : List (Except String Record)} {s' : BinaryReader} {out : List Nat} {sl : Nat}
    (h : readGo p s sp = .ok (p', s', out, sl)) : out.length + sl = sp := by
  induction p generalizing s sp out sl p' s' with
  | nil =>
    unfold readGo at h
    cases hpr : processRecord s sp with
    | ret s1 o1 l1 =>
      rw [hpr] at h
      simp only [Except.ok.injEq, Prod.mk.injEq] at h
      obtain ⟨-, -, h3, h4⟩ := h
      subst h3; subst h4
      exact processRecord_ret_len hpr
    | cont s1 o1 sp1 =>
      rw [hpr] at h
      simp only [Except.ok.injEq, Prod.mk.injEq] at h
      obtain ⟨-, -, h3, h4⟩ := h
      subst h3; subst h4
      exact processRecord_cont_len hpr
  | cons a rest ih =>
    cases a with
    | error e =>
      unfold readGo at h
      cases hpr : processRecord s sp with
      | ret s1 o1 l1 =>
        rw [hpr] at h
        simp only [Except.ok.injEq, Prod.mk.injEq] at h
        obtain ⟨-, -, h3, h4⟩ := h
        subst h3; subst h4
        exact processRecord_ret_len hpr
      | cont s1 o1 sp1 =>
        rw [hpr] at h
        simp at h
    | ok r =>
      unfold readGo at h
      cases hpr : processRecord s sp with
      | ret s1 o1 l1 =>
        rw [hpr] at h
        simp only [Except.ok.injEq, Prod.mk.injEq] at h
        obtain ⟨-, -, h3, h4⟩ := h
        subst h3; subst h4
        exact processRecord_ret_len hpr
      | cont s1 o1 sp1 =>
        rw [hpr] at h
        dsimp only at h
        cases hrec : readGo rest { s1 with record := some r } sp1 with
        | error e2 => rw [hrec] at h; simp [prependOut] at h
        | ok q =>
          obtain ⟨p2, s2, out2, sl2⟩ := q
          rw [hrec] at h
          simp only [prependOut, Except.ok.injEq, Prod.mk.injEq] at h
          obtain ⟨-, -, h3, h4⟩ := h
          subst h3; subst h4
          have h5 := ih hrec
          have h6 := processRecord_cont_len hpr
          simp only [List.length_append]
          omega

/-- Under the no-overflow bound, `read_bytes` advances by exactly the number
of bytes written across a whole `readGo` run. -/
theorem readGo_rb {p : List (Except String Record)} {s : BinaryReader} {sp : Nat}
    {p' : List (Except String Record)} {s' : BinaryReader} {out : List Nat} {sl : Nat}
    (h : readGo p s sp = .ok (p', s', out, sl)) (hw : s.read_bytes + sp < u32Mod) :
    s'.read_bytes = s.read_bytes + out.length := by
  induction p generalizing s sp out sl p' s' with
  | nil =>
    unfold readGo at h
    cases hpr : processRecord s sp with
    | ret s1 o1 l1 =>
      rw [hpr] at h
      simp only [Except.ok.injEq, Prod.mk.injEq] at h
      obtain ⟨-, h2, h3, -⟩ := h
      subst h2; subst h3
      exact processRecord_ret_rb hpr hw
    | cont s1 o1 sp1 =>
      rw [hpr] at h
      simp only [Except.ok.injEq, Prod.mk.injEq] at h
      obtain ⟨-, h2, h3, -⟩ := h
      subst h2; subst h3
      exact processRecord_cont_rb hpr hw
  | cons a rest ih =>
    cases a with
    | error e =>
      unfold readGo at h
      cases hpr : processRecord s sp with
      | ret s1 o1 l1 =>
        rw [hpr] at h
        simp only [Except.ok.injEq, Prod.mk.injEq] at h
        obtain ⟨-, h2, h3, -⟩ := h
        subst h2; subst h3
        exact processRecord_ret_rb hpr hw
      | cont s1 o1 sp1 =>
        rw [hpr] at h
        simp at h
    | ok r =>
      unfold readGo at h
      cases hpr : processRecord s sp with
      | ret s1 o1 l1 =>
        rw [hpr] at h
        simp only [Except.ok.injEq, Prod.mk.injEq] at h
        obtain ⟨-, h2, h3, -⟩ := h
        subst h2; subst h3
        exact processRecord_ret_rb hpr hw
      | cont s1 o1 sp1 =>
        rw [hpr] at h
        dsimp only at h
        cases hrec : readGo rest { s1 with record := some r } sp1 with
        | error e2 => rw [hrec] at h; simp [prependOut] at h
        | ok q =>
          obtain ⟨p2, s2, out2, sl2⟩ := q
          rw [hrec] at h
          simp only [prependOut, Except.ok.injEq, Prod.mk.injEq] at h
          obtain ⟨-, h2, h3, -⟩ := h
          subst h2; subst h3
          have hrb1 : s1.read_bytes = s.read_bytes + o1.length :=
            processRecord_cont_rb hpr hw
          have hlen1 := processRecord_cont_len hpr
          have hrec2 := ih hrec (by rw [hrb1]; omega)
          rw [hrec2, hrb1]
          simp only [List.length_append]
          omega

/-! ### Shape lemmas for `processRecord` and terminal states -/

theorem processRecord_none {s : BinaryReader} {sp : Nat} (h : s.record = none) :
    processRecord s sp = .cont s [] sp := by
  unfold processRecord
  rw [h]

theorem processRecord_eof {s : BinaryReader} {sp : Nat}
    (h : s.record = some .endOfFile) : processRecord s sp = .ret s [] sp := by
  unfold processRecord
  rw [h]

theorem processRecord_esa {s : BinaryReader} {sp : Nat} {a : Nat}
    (h : s.record = some (.extendedSegmentAddress a)) :
    processRecord s sp =
      .cont { update_address s ((a * 16) % u32Mod) with record := none } [] sp := by
  unfold processRecord
  rw [h]

theorem processRecord_ela {s : BinaryReader} {sp : Nat} {a : Nat}
    (h : s.record = some (.extendedLinearAddress a)) :
    processRecord s sp =
      .cont { update_address s ((a * 65536) % u32Mod) with record := none } [] sp := by
  unfold processRecord
  rw [h]

theorem processRecord_ssa {s : BinaryReader} {sp : Nat} {cs ip : Nat}
    (h : s.record = some (.startSegmentAddress cs ip)) :
    processRecord s sp =
      .cont { s with start_address := some (.segment cs ip), record := none } [] sp := by
  unfold processRecord
  rw [h]

theorem processRecord_sla {s : BinaryReader} {sp : Nat} {a : Nat}
    (h : s.record = some (.startLinearAddress a)) :
    processRecord s sp =
      .cont { s with start_address := some (.linear a), record := none } [] sp := by
  unfold processRecord
  rw [h]

theorem processRecord_data {s : BinaryReader} {sp : Nat} {o : Nat} {v : List Nat}
    (h : s.record = some (.data o v)) :
    processRecord s sp = processData s o v sp := by
  unfold processRecord
  rw [h]

/-- Early returns from the `Data` arm always fill the buffer completely. -/
theorem processData_ret_sl {s : BinaryReader} {o : Nat} {v : List Nat} {sp : Nat}
    {s' : BinaryReader} {out : List Nat} {sl : Nat}
    (h : processData s o v sp = .ret s' out sl) : sl = 0 := by
  unfold processData at h
  dsimp only at h
  split_ifs at h <;> injection h with h1 h2 h3 <;> omega

/-- The `Data` arm keeps the buffered record on early return. -/
theorem processData_ret_record {s : BinaryReader} {o : Nat} {v : List Nat} {sp : Nat}
    {s' : BinaryReader} {out : List Nat} {sl : Nat}
    (h : processData s o v sp = .ret s' out sl) : s'.record = s.record := by
  unfold processData at h
  dsimp only at h
  split_ifs at h <;> injection h with h1 h2 h3 <;> subst h1 <;> rfl

/-- The `Data` arm clears the buffered record exactly when it falls through. -/
theorem processData_cont_record {s : BinaryReader} {o : Nat} {v : List Nat} {sp : Nat}
    {s' : BinaryReader} {out : List Nat} {sp' : Nat}
    (h : processData s o v sp = .cont s' out sp') : s'.record = none := by
  unfold processData at h
  dsimp only at h
  split_ifs at h <;> injection h with h1 h2 h3 <;> subst h1 <;> rfl

/-- An early return with space left over can only come from `EndOfFile`. -/
theorem processRecord_ret_pos {s : BinaryReader} {sp : Nat} {s' : BinaryReader}
    {out : List Nat} {sl : Nat} (h : processRecord s sp = .ret s' out sl)
    (hsl : 0 < sl) : s' = s ∧ s.record = some .endOfFile ∧ out = [] ∧ sl = sp := by
  unfold processRecord at h
  cases hr : s.record with
  | none => rw [hr] at h; exact absurd h (by simp)
  | some r =>
    rw [hr] at h
    cases r with
    | data o v =>
      have := processData_ret_sl h
      omega
    | extendedSegmentAddress a => exact absurd h (by simp)
    | extendedLinearAddress a => exact absurd h (by simp)
    | startSegmentAddress cs ip => exact absurd h (by simp)
    | startLinearAddress a => exact absurd h (by simp)
    | endOfFile =>
      injection h with h1 h2 h3
      exact ⟨h1.symm, rfl, h2.symm, h3.symm⟩

/-- After a fall-through, no record is buffered. -/
theorem processRecord_cont_record {s : BinaryReader} {sp : Nat} {s' : BinaryReader}
    {out : List Nat} {sp' : Nat} (h : processRecord s sp = .cont s' out sp') :
    s'.record = none := by
  unfold processRecord at h
  cases hr : s.record with
  | none =>
    rw [hr] at h
    injection h with h1 h2 h3
    subst h1
    exact hr
  | some r =>
    rw [hr] at h
    cases r with
    | data o v => exact processData_cont_record h
    | extendedSegmentAddress a => injection h with h1 h2 h3; subst h1; rfl
    | extendedLinearAddress a => injection h with h1 h2 h3; subst h1; rfl
    | startSegmentAddress cs ip => injection h with h1 h2 h3; subst h1; rfl
    | startLinearAddress a => injection h with h1 h2 h3; subst h1; rfl
    | endOfFile => exact absurd h (by simp)

/-- A buffered `EndOfFile` makes the loop return immediately, unchanged. -/
theorem readGo_eof {p : List (Except String Record)} {s : BinaryReader} {sp : Nat}
    (h : s.record = some .endOfFile) : readGo p s sp = .ok (p, s, [], sp) := by
  cases p with
  | nil => unfold readGo; rw [processRecord_eof h]
  | cons a tl =>
    cases a with
    | error e => unfold readGo; rw [processRecord_eof h]
    | ok r => unfold readGo; rw [processRecord_eof h]

/-- An exhausted producer with no buffered record returns immediately. -/
theorem readGo_exhausted {s : BinaryReader} {sp : Nat} (h : s.record = none) :
    readGo [] s sp = .ok ([], s, [], sp) := by
  unfold readGo
  rw [processRecord_none h]

theorem read_of_readGo {p p' : List (Except String Record)} {s s' : BinaryReader}
    {n sl : Nat} {out : List Nat} (h : readGo p s n = .ok (p', s', out, sl)) :
    BinaryReader.read p s n = .ok (p', s', out, n - sl) := by
  unfold BinaryReader.read
  rw [h]

theorem read_error_of_readGo {p : List (Except String Record)} {s : BinaryReader}
    {n : Nat} {e : String} (h : readGo p s n = .error e) : BinaryReader.read p s n = .error e := by
  unfold BinaryReader.read
  rw [h]

theorem read_ok_inv {p p' : List (Except String Record)} {s s' : BinaryReader}
    {n c : Nat} {out : List Nat} (h : BinaryReader.read p s n = .ok (p', s', out, c)) :
    ∃ sl, readGo p s n = .ok (p', s', out, sl) ∧ c = n - sl ∧ out.length + sl = n := by
  unfold BinaryReader.read at h
  cases hg : readGo p s n with
  | error e => rw [hg] at h; exact absurd h (by simp)
  | ok q =>
    obtain ⟨p2, s2, out2, sl2⟩ := q
    rw [hg] at h
    simp only [Except.ok.injEq, Prod.mk.injEq] at h
    obtain ⟨h1, h2, h3, h4⟩ := h
    subst h1; subst h2; subst h3; subst h4
    exact ⟨sl2, rfl, rfl, readGo_len hg⟩

/-- A buffered `EndOfFile` makes `read` return `Ok(0)` without touching
anything: the producer, the state and the buffer are all left alone. -/
theorem read_eof {p : List (Except String Record)} {s : BinaryReader} {n : Nat}
    (h : s.record = some .endOfFile) : BinaryReader.read p s n = .ok (p, s, [], 0) := by
  have := read_of_readGo (@readGo_eof p s n h)
  simpa using this

/-- An exhausted producer makes `read` return `Ok(0)` with nothing written. -/
theorem read_exhausted {s : BinaryReader} {n : Nat} (h : s.record = none) :
    BinaryReader.read [] s n = .ok ([], s, [], 0) := by
  have := read_of_readGo (@readGo_exhausted s n h)
  simpa using this

/-- A short `readGo` return means the stream terminated: either an
`EndOfFile` record stays buffered, or the producer is exhausted with no
buffered record. -/
theorem readGo_short {p p' : List (Except String Record)} {s s' : BinaryReader}
    {sp sl : Nat} {out : List Nat} (h : readGo p s sp = .ok (p', s', out, sl))
    (hsl : 0 < sl) :
    s'.record = some Record.endOfFile ∨ (p' = [] ∧ s'.record = none) := by
  induction p generalizing s sp out sl p' s' with
  | nil =>
    unfold readGo at h
    cases hpr : processRecord s sp with
    | ret s1 o1 l1 =>
      rw [hpr] at h
      simp only [Except.ok.injEq, Prod.mk.injEq] at h
      obtain ⟨-, h2, -, h4⟩ := h
      subst h2; subst h4
      obtain ⟨he, he2, -, -⟩ := processRecord_ret_pos hpr hsl
      subst he
      exact Or.inl he2
    | cont s1 o1 sp1 =>
      rw [hpr] at h
      simp only [Except.ok.injEq, Prod.mk.injEq] at h
      obtain ⟨h1, h2, -, -⟩ := h
      subst h1; subst h2
      exact Or.inr ⟨rfl, processRecord_cont_record hpr⟩
  | cons a rest ih =>
    cases a with
    | error e =>
      unfold readGo at h
      cases hpr : processRecord s sp with
      | ret s1 o1 l1 =>
        rw [hpr] at h
        simp only [Except.ok.injEq, Prod.mk.injEq] at h
        obtain ⟨-, h2, -, h4⟩ := h
        subst h2; subst h4
        obtain ⟨he, he2, -, -⟩ := processRecord_ret_pos hpr hsl
        subst he
        exact Or.inl he2
      | cont s1 o1 sp1 =>
        rw [hpr] at h
        simp at h
    | ok r =>
      unfold readGo at h
      cases hpr : processRecord s sp with
      | ret s1 o1 l1 =>
        rw [hpr] at h
        simp only [Except.ok.injEq, Prod.mk.injEq] at h
        obtain ⟨-, h2, -, h4⟩ := h
        subst h2; subst h4
        obtain ⟨he, he2, -, -⟩ := processRecord_ret_pos hpr hsl
        subst he
        exact Or.inl he2
      | cont s1 o1 sp1 =>
        rw [hpr] at h
        dsimp only at h
        cases hrec : readGo rest { s1 with record := some r } sp1 with
        | error e2 => rw [hrec] at h; simp [prependOut] at h
        | ok q =>
          obtain ⟨p2, s2, out2, sl2⟩ := q
          rw [hrec] at h
          simp only [prependOut, Except.ok.injEq, Prod.mk.injEq] at h
          obtain ⟨h1, h2, -, h4⟩ := h
          subst h1; subst h2; subst h4
          exact ih hrec hsl

/-! ### Start-address and base-address tracking -/

/-- An early return leaves the loop immediately with the producer intact. -/
theorem readGo_ret_any {p : List (Except String Record)} {s : BinaryReader} {sp : Nat}
    {s' : BinaryReader} {out : List Nat} {sl : Nat}
    (h : processRecord s sp = .ret s' out sl) : readGo p s sp = .ok (p, s', out, sl) := by
  cases p with
  | nil => unfold readGo; rw [h]
  | cons a tl =>
    cases a with
    | error e => unfold readGo; rw [h]
    | ok r => unfold readGo; rw [h]

/-- A zero-length buffer never takes any bytes and reports count `0`. -/
theorem read_zero_ok {p p' : List (Except String Record)} {s s' : BinaryReader}
    {out : List Nat} {c : Nat} (h : BinaryReader.read p s 0 = .ok (p', s', out, c)) :
    out = [] ∧ c = 0 := by
  obtain ⟨sl, hg, hc, hlen⟩ := read_ok_inv h
  have h1 : out.length = 0 := by omega
  exact ⟨List.length_eq_zero.mp h1, by omega⟩

/-- `processData` never touches `start_address`, `base_address`, `address` or
`underflow`. -/
theorem processData_frame {s : BinaryReader} {o : Nat} {v : List Nat} {sp : Nat} :
    (match processData s o v sp with
     | .ret s1 _ _ =>
         s1.start_address = s.start_address ∧ s1.base_address = s.base_address ∧
         s1.address = s.address ∧ s1.underflow = s.underflow
     | .cont s1 _ _ =>
         s1.start_address = s.start_address ∧ s1.base_address = s.base_address ∧
         s1.address = s.address ∧ s1.underflow = s.underflow) := by
  unfold processData
  dsimp only
  split_ifs <;> exact ⟨rfl, rfl, rfl, rfl⟩

/-- `processData` never changes `start_address`. -/
theorem processData_start_eq (s : BinaryReader) (o : Nat) (v : List Nat) (sp : Nat) :
    (match processData s o v sp with
     | .ret s1 _ _ => s1.start_address = s.start_address
     | .cont s1 _ _ => s1.start_address = s.start_address) := by
  unfold processData
  dsimp only
  split_ifs <;> rfl

/-- `processData` never changes `base_address`. -/
theorem processData_base_eq (s : BinaryReader) (o : Nat) (v : List Nat) (sp : Nat) :
    (match processData s o v sp with
     | .ret s1 _ _ => s1.base_address = s.base_address
     | .cont s1 _ _ => s1.base_address = s.base_address) := by
  unfold processData
  dsimp only
  split_ifs <;> rfl

/-- One loop-body step updates the captured start address by `updStart` on
the buffered record. -/
theorem processRecord_start (s : BinaryReader) (sp : Nat) :
    (match processRecord s sp with
     | .ret s1 _ _ => s1.start_address = updStartO s.start_address s.record
     | .cont s1 _ _ => s1.start_address = updStartO s.start_address s.record) := by
  unfold processRecord
  cases hr : s.record with
  | none => simp [updStartO]
  | some r =>
    cases r with
    | data o v => exact processData_start_eq s o v sp
    | extendedSegmentAddress a =>
      simp only [updStartO, updStart]
      unfold update_address
      split <;> rfl
    | extendedLinearAddress a =>
      simp only [updStartO, updStart]
      unfold update_address
      split <;> rfl
    | startSegmentAddress cs ip => simp [updStartO, updStart]
    | startLinearAddress a => simp [updStartO, updStart]
    | endOfFile => simp [updStartO, updStart]

theorem processRecord_ret_start {s : BinaryReader} {sp : Nat} {s' : BinaryReader}
    {out : List Nat} {sl : Nat} (h : processRecord s sp = .ret s' out sl) :
    s'.start_address = updStartO s.start_address s.record := by
  have := processRecord_start s sp
  rw [h] at this
  exact this

theorem processRecord_cont_start {s : BinaryReader} {sp : Nat} {s' : BinaryReader}
    {out : List Nat} {sp' : Nat} (h : processRecord s sp = .cont s' out sp') :
    s'.start_address = updStartO s.start_address s.record := by
  have := processRecord_start s sp
  rw [h] at this
  exact this

/-- Across a whole `readGo` run, the final `start_address` is the left fold
of `updStart` over the buffered record followed by all records consumed from
the producer. -/
theorem readGo_start {p p' : List (Except String Record)} {s s' : BinaryReader}
    {sp sl : Nat} {out : List Nat} (h : readGo p s sp = .ok (p', s', out, sl)) :
    ∃ recs : List Record, p = recs.map Except.ok ++ p' ∧
      s'.start_address = recs.foldl updStart (updStartO s.start_address s.record) := by
  induction p generalizing s sp out sl p' s' with
  | nil =>
    unfold readGo at h
    cases hpr : processRecord s sp with
    | ret s1 o1 l1 =>
      rw [hpr] at h
      simp only [Except.ok.injEq, Prod.mk.injEq] at h
      obtain ⟨h1, h2, -, -⟩ := h
      subst h1; subst h2
      exact ⟨[], by simp, processRecord_ret_start hpr⟩
    | cont s1 o1 sp1 =>
      rw [hpr] at h
      simp only [Except.ok.injEq, Prod.mk.injEq] at h
      obtain ⟨h1, h2, -, -⟩ := h
      subst h1; subst h2
      exact ⟨[], by simp, processRecord_cont_start hpr⟩
  | cons a rest ih =>
    cases a with
    | error e =>
      unfold readGo at h
      cases hpr : processRecord s sp with
      | ret s1 o1 l1 =>
        rw [hpr] at h
        simp only [Except.ok.injEq, Prod.mk.injEq] at h
        obtain ⟨h1, h2, -, -⟩ := h
        subst h1; subst h2
        exact ⟨[], by simp, processRecord_ret_start hpr⟩
      | cont s1 o1 sp1 =>
        rw [hpr] at h
        simp at h
    | ok r =>
      unfold readGo at h
      cases hpr : processRecord s sp with
      | ret s1 o1 l1 =>
        rw [hpr] at h
        simp only [Except.ok.injEq, Prod.mk.injEq] at h
        obtain ⟨h1, h2, -, -⟩ := h
        subst h1; subst h2
        exact ⟨[], by simp, processRecord_ret_start hpr⟩
      | cont s1 o1 sp1 =>
        rw [hpr] at h
        dsimp only at h
        cases hrec : readGo rest { s1 with record := some r } sp1 with
        | error e2 => rw [hrec] at h; simp [prependOut] at h
        | ok q =>
          obtain ⟨p2, s2, out2, sl2⟩ := q
          rw [hrec] at h
          simp only [prependOut, Except.ok.injEq, Prod.mk.injEq] at h
          obtain ⟨h1, h2, -, -⟩ := h
          subst h1; subst h2
          obtain ⟨recs2, hrecs2, hstart2⟩ := ih hrec
          refine ⟨r :: recs2, by simp [hrecs2], ?_⟩
          rw [hstart2]
          have hs1 : ({ s1 with record := some r } : BinaryReader).start_address
              = s1.start_address := rfl
          rw [List.foldl_cons]
          have : updStartO ({ s1 with record := some r } : BinaryReader).start_address
              (some r) = updStart s1.start_address r := rfl
          rw [this, processRecord_cont_start hpr]

/-- Once `base_address` is nonzero it can never change again: every branch of
the loop body preserves it. -/
theorem processRecord_base (s : BinaryReader) (sp : Nat) (hb : s.base_address ≠ 0) :
    (match processRecord s sp with
     | .ret s1 _ _ => s1.base_address = s.base_address
     | .cont s1 _ _ => s1.base_address = s.base_address) := by
  unfold processRecord
  cases hr : s.record with
  | none => simp
  | some r =>
    cases r with
    | data o v => exact processData_base_eq s o v sp
    | extendedSegmentAddress a =>
      simp only []
      unfold update_address
      rw [if_neg (by tauto)]
    | extendedLinearAddress a =>
      simp only []
      unfold update_address
      rw [if_neg (by tauto)]
    | startSegmentAddress cs ip => simp
    | startLinearAddress a => simp
    | endOfFile => simp

/-- `base_address`, once nonzero, survives any `readGo` run unchanged. -/
theorem readGo_base {p p' : List (Except String Record)} {s s' : BinaryReader}
    {sp sl : Nat} {out : List Nat} (h : readGo p s sp = .ok (p', s', out, sl))
    (hb : s.base_address ≠ 0) : s'.base_address = s.base_address := by
  induction p generalizing s sp out sl p' s' with
  | nil =>
    unfold readGo at h
    cases hpr : processRecord s sp with
    | ret s1 o1 l1 =>
      rw [hpr] at h
      simp only [Except.ok.injEq, Prod.mk.injEq] at h
      obtain ⟨-, h2, -, -⟩ := h
      subst h2
      have := processRecord_base s sp hb
      rw [hpr] at this
      exact this
    | cont s1 o1 sp1 =>
      rw [hpr] at h
      simp only [Except.ok.injEq, Prod.mk.injEq] at h
      obtain ⟨-, h2, -, -⟩ := h
      subst h2
      have := processRecord_base s sp hb
      rw [hpr] at this
      exact this
  | cons a rest ih =>
    cases a with
    | error e =>
      unfold readGo at h
      cases hpr : processRecord s sp with
      | ret s1 o1 l1 =>
        rw [hpr] at h
        simp only [Except.ok.injEq, Prod.mk.injEq] at h
        obtain ⟨-, h2, -, -⟩ := h
        subst h2
        have := processRecord_base s sp hb
        rw [hpr] at this
        exact this
      | cont s1 o1 sp1 =>
        rw [hpr] at h
        simp at h
    | ok r =>
      unfold readGo at h
      cases hpr : processRecord s sp with
      | ret s1 o1 l1 =>
        rw [hpr] at h
        simp only [Except.ok.injEq, Prod.mk.injEq] at h
        obtain ⟨-, h2, -, -⟩ := h
        subst h2
        have := processRecord_base s sp hb
        rw [hpr] at this
        exact this
      | cont s1 o1 sp1 =>
        rw [hpr] at h
        dsimp only at h
        cases hrec : readGo rest { s1 with record := some r } sp1 with
        | error e2 => rw [hrec] at h; simp [prependOut] at h
        | ok q =>
          obtain ⟨p2, s2, out2, sl2⟩ := q
          rw [hrec] at h
          simp only [prependOut, Except.ok.injEq, Prod.mk.injEq] at h
          obtain ⟨-, h2, -, -⟩ := h
          subst h2
          have hbase1 : s1.base_address = s.base_address := by
            have := processRecord_base s sp hb
            rw [hpr] at this
            exact this
          have := ih hrec (by simp only []; rw [hbase1]; exact hb)
          simp only [] at this
          rw [this, hbase1]

/-! ### Compositional step lemmas for `readGo` -/

theorem readGo_cont_nil {s s' : BinaryReader} {sp sp' : Nat} {out : List Nat}
    (h : processRecord s sp = .cont s' out sp') :
    readGo [] s sp = .ok ([], s', out, sp') := by
  unfold readGo
  rw [h]

theorem readGo_cont_err {s s' : BinaryReader} {sp sp' : Nat} {out : List Nat}
    {e : String} {tl : List (Except String Record)}
    (h : processRecord s sp = .cont s' out sp') :
    readGo (.error e :: tl) s sp = .error ("Error reading hex file: " ++ e) := by
  unfold readGo
  rw [h]

theorem readGo_cont_ok {s s' : BinaryReader} {sp sp' : Nat} {out : List Nat}
    {r : Record} {rest : List (Except String Record)}
    (h : processRecord s sp = .cont s' out sp') :
    readGo (.ok r :: rest) s sp
      = prependOut out (readGo rest { s' with record := some r } sp') := by
  simp only [readGo]
  rw [h]

theorem totalLen_cons {o : Nat} {v : List Nat} {rest : List (Nat × List Nat)} :
    totalLen ((o, v) :: rest) = v.length + totalLen rest := by
  simp [totalLen]

theorem payloadConcat_cons {o : Nat} {v : List Nat} {rest : List (Nat × List Nat)} :
    payloadConcat ((o, v) :: rest) = v ++ payloadConcat rest := by
  simp [payloadConcat]

theorem payloadConcat_nil_of {recs : List (Nat × List Nat)}
    (h : totalLen recs = 0) : payloadConcat recs = [] := by
  induction recs with
  | nil => rfl
  | cons hd rest ih =>
    obtain ⟨o, v⟩ := hd
    rw [totalLen_cons] at h
    rw [payloadConcat_cons, ih (by omega)]
    have hv : v = [] := List.length_eq_zero.mp (by omega)
    rw [hv]
    rfl

/-- The core of claim C1: with a contiguous `Data` record loaded (its address
equal to `read_bytes`) and a producer holding only further contiguous `Data`
records, the loop emits exactly the remaining payload followed by all later
payloads, using exactly that much buffer space. -/
theorem readGo_contig : ∀ (recs : List (Nat × List Nat)) (o : Nat) (v : List Nat)
    (s : BinaryReader) (sp : Nat),
    s.record = some (.data o v) → s.record_pos = 0 → s.address = 0 →
    o = s.read_bytes →
    contigB (s.read_bytes + v.length) recs = true →
    s.read_bytes + v.length + totalLen recs < u32Mod →
    v.length + totalLen recs ≤ sp →
    ∃ p' s', readGo (recs.map (fun r => Except.ok (Record.data r.1 r.2))) s sp
      = .ok (p', s', v ++ payloadConcat recs, sp - (v.length + totalLen recs)) := by
  intro recs
  induction recs with
  | nil =>
    intro o v s sp hrec hpos haddr ho hc hb hsp
    have hra : (s.address + o) % u32Mod = s.read_bytes := by
      rw [haddr, ho, Nat.zero_add]
      exact Nat.mod_eq_of_lt (by simp [totalLen] at hb; omega)
    rcases Nat.lt_or_ge v.length sp with hlt | hge
    case inl =>
      have hpd := processData_nogap_cont (v := v) (le_of_eq hra)
        (by rw [hpos, List.drop_zero]; exact hlt)
      rw [hpos, List.drop_zero] at hpd
      have hpr : processRecord s sp
          = .cont { s with record := none, record_pos := 0,
                           read_bytes := (s.read_bytes + v.length) % u32Mod }
                v (sp - v.length) := by
        rw [processRecord_data hrec]
        exact hpd
      rw [List.map_nil]
      simp only [payloadConcat, totalLen, List.map_nil, List.flatten_nil, List.sum_nil,
        List.append_nil, Nat.add_zero]
      exact ⟨[], _, readGo_cont_nil hpr⟩
    case inr =>
      have hLeq : v.length = sp := by
        simp [totalLen] at hsp
        omega
      by_cases hsp0 : sp = 0
      case pos =>
        subst hsp0
        have hv : v = [] := List.length_eq_zero.mp (by omega)
        have hpr : processRecord s 0 = .ret s [] 0 := by
          rw [processRecord_data hrec]
          exact processData_zero (le_of_eq hra)
        subst hv
        rw [List.map_nil]
        simp only [payloadConcat, totalLen, List.map_nil, List.flatten_nil, List.sum_nil,
          List.nil_append, Nat.add_zero, List.length_nil, Nat.zero_sub]
        exact ⟨[], s, readGo_ret_any hpr⟩
      case neg =>
        have hpd := processData_nogap_fill (v := v) (le_of_eq hra)
          (Nat.pos_of_ne_zero hsp0) (by rw [hpos, List.drop_zero]; omega)
        rw [hpos, List.drop_zero] at hpd
        have hpr : processRecord s sp
            = .ret { s with record_pos := 0 + sp,
                            read_bytes := (s.read_bytes + sp) % u32Mod }
                  (v.take sp) 0 := by
          rw [processRecord_data hrec]
          exact hpd
        have hvtake : v.take sp = v := by
          rw [← hLeq]
          exact List.take_length v
        have hres := @readGo_ret_any [] s sp _ _ _ hpr
        rw [hvtake] at hres
        rw [List.map_nil]
        simp only [payloadConcat, totalLen, List.map_nil, List.flatten_nil, List.sum_nil,
          List.append_nil, Nat.add_zero]
        rw [show sp - v.length = 0 from by omega]
        exact ⟨[], _, hres⟩
  | cons hd rest ih =>
    intro o v s sp hrec hpos haddr ho hc hb hsp
    obtain ⟨o2, v2⟩ := hd
    have hra : (s.address + o) % u32Mod = s.read_bytes := by
      rw [haddr, ho, Nat.zero_add]
      exact Nat.mod_eq_of_lt (by omega)
    have hcc : o2 = s.read_bytes + v.length
        ∧ contigB (s.read_bytes + v.length + v2.length) rest = true := by
      simpa [contigB, Bool.and_eq_true, decide_eq_true_eq] using hc
    rcases Nat.lt_or_ge v.length sp with hlt | hge
    case inl =>
      have hpd := processData_nogap_cont (v := v) (le_of_eq hra)
        (by rw [hpos, List.drop_zero]; exact hlt)
      rw [hpos, List.drop_zero] at hpd
      have hpr : processRecord s sp
          = .cont { s with record := none, record_pos := 0,
                           read_bytes := (s.read_bytes + v.length) % u32Mod }
                v (sp - v.length) := by
        rw [processRecord_data hrec]
        exact hpd
      have hrbv : (s.read_bytes + v.length) % u32Mod = s.read_bytes + v.length := by
        rw [totalLen_cons] at hb
        exact Nat.mod_eq_of_lt (by omega)
      have hih := ih o2 v2
        { s with record := some (.data o2 v2), record_pos := 0,
                 read_bytes := (s.read_bytes + v.length) % u32Mod }
        (sp - v.length) rfl rfl haddr
        (by simp only []; rw [hrbv]; exact hcc.1)
        (by simp only []; rw [hrbv]; exact hcc.2)
        (by simp only []; rw [hrbv]; rw [totalLen_cons] at hb; omega)
        (by rw [totalLen_cons] at hsp; omega)
      obtain ⟨p', s', hrec2⟩ := hih
      refine ⟨p', s', ?_⟩
      rw [List.map_cons, readGo_cont_ok hpr]
      dsimp only
      rw [hrec2]
      simp only [prependOut, payloadConcat_cons, totalLen_cons]
      rw [Nat.sub_sub]
    case inr =>
      have hLeq : v.length = sp := by
        rw [totalLen_cons] at hsp
        omega
      have htot0 : totalLen ((o2, v2) :: rest) = 0 := by
        omega
      have hpc := payloadConcat_nil_of htot0
      by_cases hsp0 : sp = 0
      case pos =>
        subst hsp0
        have hv : v = [] := List.length_eq_zero.mp (by omega)
        have hpr : processRecord s 0 = .ret s [] 0 := by
          rw [processRecord_data hrec]
          exact processData_zero (le_of_eq hra)
        subst hv
        rw [hpc, htot0]
        simp only [List.nil_append, Nat.add_zero, List.length_nil, Nat.zero_sub, Nat.sub_zero]
        exact ⟨_, s, readGo_ret_any hpr⟩
      case neg =>
        have hpd := processData_nogap_fill (v := v) (le_of_eq hra)
          (Nat.pos_of_ne_zero hsp0) (by rw [hpos, List.drop_zero]; omega)
        rw [hpos, List.drop_zero] at hpd
        have hpr : processRecord s sp
            = .ret { s with record_pos := 0 + sp,
                            read_bytes := (s.read_bytes + sp) % u32Mod }
                  (v.take sp) 0 := by
          rw [processRecord_data hrec]
          exact hpd
        have hvtake : v.take sp = v := by
          rw [← hLeq]
          exact List.take_length v
        have hres := @readGo_ret_any
          (((o2, v2) :: rest).map (fun r => Except.ok (Record.data r.1 r.2))) s sp _ _ _ hpr
        rw [hvtake] at hres
        rw [hpc, htot0]
        simp only [List.append_nil, Nat.add_zero]
        rw [show sp - v.length = 0 from by omega]
        exact ⟨_, _, hres⟩

/-! ### Claims -/

/-- Claim C1: a stream of only `Data` records that are contiguous from
offset 0 (each record's offset equals the total length of the payloads
before it), read into a large-enough buffer, yields exactly the
concatenation of the payloads in record order, and reports that many bytes. -/
theorem c1_contiguous_concat {recs : List (Nat × List Nat)} {n : Nat}
    (hc : contigB 0 recs = true) (hb : totalLen recs < u32Mod)
    (hn : totalLen recs ≤ n) :
    ∃ p' s', BinaryReader.read (recs.map (fun r => Except.ok (Record.data r.1 r.2)))
        BinaryReader.new n
      = .ok (p', s', payloadConcat recs, totalLen recs) := by
  cases recs with
  | nil =>
    rw [List.map_nil]
    simp only [payloadConcat, totalLen, List.map_nil, List.flatten_nil, List.sum_nil]
    exact ⟨[], BinaryReader.new, read_exhausted rfl⟩
  | cons hd rest =>
    obtain ⟨o, v⟩ := hd
    have hcc : o = 0 ∧ contigB v.length rest = true := by
      simpa [contigB, Bool.and_eq_true, decide_eq_true_eq] using hc
    rw [totalLen_cons] at hb hn
    have hpr : processRecord BinaryReader.new n = .cont BinaryReader.new [] n :=
      processRecord_none rfl
    have hg := readGo_contig rest o v
      { record := some (.data o v), record_pos := 0, base_address := 0, address := 0,
        read_bytes := 0, start_address := none, underflow := false } n
      rfl rfl rfl (by simpa using hcc.1) (by simpa using hcc.2)
      (by simpa using hb) (by simpa using hn)
    obtain ⟨p', s', hg⟩ := hg
    refine ⟨p', s', ?_⟩
    unfold BinaryReader.read
    rw [List.map_cons, readGo_cont_ok hpr]
    dsimp only [BinaryReader.new]
    rw [hg]
    simp only [prependOut, List.nil_append, payloadConcat_cons, totalLen_cons]
    rw [show n - (n - (v.length + totalLen rest)) = v.length + totalLen rest from by omega]

/-- Witness for C1: two contiguous data records, payloads `[1,2]` then `[3]`,
into a 5-byte buffer: output `[1,2,3]`, count `3`. -/
theorem c1_contiguous_concat_witness :
    ∃ p' s', BinaryReader.read
        (([(0, [1, 2]), (2, [3])] : List (Nat × List Nat)).map
          (fun r => Except.ok (Record.data r.1 r.2)))
        BinaryReader.new 5
      = .ok (p', s', payloadConcat [(0, [1, 2]), (2, [3])],
             totalLen [(0, [1, 2]), (2, [3])]) :=
  c1_contiguous_concat (by decide) (by decide) (by decide)

/-- A fill that ends inside the gap: exactly `n` zeros come out, only
`read_bytes` advances, and the `Data` record stays buffered untouched. -/
theorem read_gap_step {p : List (Except String Record)} {s : BinaryReader}
    {o n : Nat} {v : List Nat} (hrec : s.record = some (.data o v))
    (hgap : s.read_bytes < (s.address + o) % u32Mod)
    (hn : n ≤ (s.address + o) % u32Mod - s.read_bytes) :
    BinaryReader.read p s n
      = .ok (p, { s with read_bytes := s.read_bytes + n }, List.replicate n 0, n) := by
  have hpr : processRecord s n
      = .ret { s with read_bytes := s.read_bytes + n } (List.replicate n 0) 0 := by
    rw [processRecord_data hrec]
    exact processData_gap_all hgap hn
  have := read_of_readGo (@readGo_ret_any p s n _ _ _ hpr)
  simpa using this

/-- A sequence of fills that in total stay within the gap: each call yields
only zeros, and the gap left is exactly the original gap minus the total. -/
theorem fillMany_gap {o : Nat} {v : List Nat} :
    ∀ (ns : List Nat) (p : List (Except String Record)) (s : BinaryReader),
    s.record = some (.data o v) →
    s.read_bytes + ns.sum ≤ (s.address + o) % u32Mod →
    fillMany ns p s
      = .ok (p, { s with read_bytes := s.read_bytes + ns.sum },
             ns.map (fun k => List.replicate k 0), ns) := by
  intro ns
  induction ns with
  | nil =>
    intro p s hrec hsum
    unfold fillMany
    simp
  | cons k ns' ih =>
    intro p s hrec hsum
    rw [List.sum_cons] at hsum
    have hcall : BinaryReader.read p s k
        = .ok (p, { s with read_bytes := s.read_bytes + k }, List.replicate k 0, k) := by
      by_cases hk : k = 0
      case pos =>
        subst hk
        rcases Nat.lt_or_ge s.read_bytes ((s.address + o) % u32Mod) with hgap | hgap
        case inl => exact read_gap_step hrec hgap (Nat.zero_le _)
        case inr =>
          have hpr : processRecord s 0 = .ret s [] 0 := by
            rw [processRecord_data hrec]
            exact processData_zero hgap
          have := read_of_readGo (@readGo_ret_any p s 0 _ _ _ hpr)
          simpa using this
      case neg =>
        have hgap : s.read_bytes < (s.address + o) % u32Mod := by omega
        exact read_gap_step hrec hgap (by omega)
    unfold fillMany
    rw [hcall]
    dsimp only
    have hih := ih p { s with read_bytes := s.read_bytes + k } hrec (by simp only []; omega)
    rw [hih]
    dsimp only
    rw [List.sum_cons, List.map_cons, show s.read_bytes + k + ns'.sum
      = s.read_bytes + (k + ns'.sum) from by omega]

/-- The fill that closes the gap: the remaining zeros come out first,
followed by a prefix of the record's payload. -/
theorem read_gap_close {p : List (Except String Record)} {s : BinaryReader}
    {o m : Nat} {v : List Nat} (hrec : s.record = some (.data o v))
    (hpos : s.record_pos = 0)
    (hle : s.read_bytes ≤ (s.address + o) % u32Mod)
    (hm1 : (s.address + o) % u32Mod ≤ s.read_bytes + m)
    (hm2 : s.read_bytes + m ≤ (s.address + o) % u32Mod + v.length) :
    ∃ s', BinaryReader.read p s m
      = .ok (p, s', List.replicate ((s.address + o) % u32Mod - s.read_bytes) 0
             ++ v.take (s.read_bytes + m - (s.address + o) % u32Mod), m) := by
  rcases Nat.lt_or_ge s.read_bytes ((s.address + o) % u32Mod) with hgap | hgap
  case inl =>
    by_cases hmg : s.read_bytes + m = (s.address + o) % u32Mod
    case pos =>
      have h1 := @read_gap_step p s o m v hrec hgap
        (by omega : m ≤ (s.address + o) % u32Mod - s.read_bytes)
      rw [show (s.address + o) % u32Mod - s.read_bytes = m from by omega,
          show s.read_bytes + m - (s.address + o) % u32Mod = 0 from by omega]
      simp only [List.take_zero, List.append_nil]
      exact ⟨_, h1⟩
    case neg =>
      have hgm : (s.address + o) % u32Mod - s.read_bytes < m := by omega
      have hpd := processData_gap_fill (v := v) hgap hgm
        (by rw [hpos, List.drop_zero]; omega)
      rw [hpos, List.drop_zero] at hpd
      have hpr : processRecord s m
          = .ret { s with
                     record_pos := 0 + (m - ((s.address + o) % u32Mod - s.read_bytes)),
                     read_bytes := ((s.address + o) % u32Mod
                       + (m - ((s.address + o) % u32Mod - s.read_bytes))) % u32Mod }
                (List.replicate ((s.address + o) % u32Mod - s.read_bytes) 0
                  ++ v.take (m - ((s.address + o) % u32Mod - s.read_bytes))) 0 := by
        rw [processRecord_data hrec]
        exact hpd
      have hres := read_of_readGo (@readGo_ret_any p s m _ _ _ hpr)
      simp only [Nat.sub_zero] at hres
      rw [show s.read_bytes + m - (s.address + o) % u32Mod
        = m - ((s.address + o) % u32Mod - s.read_bytes) from by omega]
      exact ⟨_, hres⟩
  case inr =>
    have hra : (s.address + o) % u32Mod = s.read_bytes := by omega
    by_cases hm0 : m = 0
    case pos =>
      subst hm0
      have hpr : processRecord s 0 = .ret s [] 0 := by
        rw [processRecord_data hrec]
        exact processData_zero hgap
      have hres := read_of_readGo (@readGo_ret_any p s 0 _ _ _ hpr)
      simp only [Nat.sub_zero] at hres
      simp only [hra, Nat.add_zero, Nat.sub_self, List.replicate_zero, List.nil_append,
        List.take_zero]
      exact ⟨s, hres⟩
    case neg =>
      have hpd := processData_nogap_fill (v := v) hgap (Nat.pos_of_ne_zero hm0)
        (by rw [hpos, List.drop_zero]; omega)
      rw [hpos, List.drop_zero] at hpd
      have hpr : processRecord s m
          = .ret { s with record_pos := 0 + m,
                          read_bytes := (s.read_bytes + m) % u32Mod }
                (v.take m) 0 := by
        rw [processRecord_data hrec]
        exact hpd
      have hres := read_of_readGo (@readGo_ret_any p s m _ _ _ hpr)
      simp only [Nat.sub_zero] at hres
      rw [hra]
      simp only [Nat.sub_self, List.replicate_zero, List.nil_append]
      rw [show s.read_bytes + m - s.read_bytes = m from by omega]
      exact ⟨_, hres⟩

theorem fillMany_nil (p : List (Except String Record)) (s : BinaryReader) :
    fillMany [] p s = .ok (p, s, [], []) := rfl

theorem fillMany_cons (n : Nat) (ns : List Nat) (p : List (Except String Record))
    (s : BinaryReader) :
    fillMany (n :: ns) p s
      = match BinaryReader.read p s n with
        | .error e => .error e
        | .ok (p', s', out, c) =>
          match fillMany ns p' s' with
          | .error e => .error e
          | .ok (p'', s'', outs, cs) => .ok (p'', s'', out :: outs, c :: cs) := rfl

/-- `fillMany` splits over list append. -/
theorem fillMany_append (as bs : List Nat) (p : List (Except String Record))
    (s : BinaryReader) {p1 : List (Except String Record)} {s1 : BinaryReader}
    {outs : List (List Nat)} {cs : List Nat}
    (h : fillMany as p s = .ok (p1, s1, outs, cs)) :
    fillMany (as ++ bs) p s
      = match fillMany bs p1 s1 with
        | .error e => .error e
        | .ok (p2, s2, outs2, cs2) => .ok (p2, s2, outs ++ outs2, cs ++ cs2) := by
  induction as generalizing p s outs cs with
  | nil =>
    rw [fillMany_nil] at h
    simp only [Except.ok.injEq, Prod.mk.injEq] at h
    obtain ⟨h1, h2, h3, h4⟩ := h
    subst h1; subst h2; subst h3; subst h4
    rw [List.nil_append]
    cases hb : fillMany bs p s with
    | error e => rfl
    | ok q => obtain ⟨p2, s2, outs2, cs2⟩ := q; rfl
  | cons a as' ih =>
    rw [fillMany_cons] at h
    rw [List.cons_append, fillMany_cons]
    cases hr : BinaryReader.read p s a with
    | error e => rw [hr] at h; simp at h
    | ok q =>
      obtain ⟨pa, sa, outa, ca⟩ := q
      rw [hr] at h
      dsimp only at h ⊢
      cases hraux : fillMany as' pa sa with
      | error e => rw [hraux] at h; simp at h
      | ok q2 =>
        obtain ⟨pb, sb, outsb, csb⟩ := q2
        rw [hraux] at h
        simp only [Except.ok.injEq, Prod.mk.injEq] at h
        obtain ⟨h1, h2, h3, h4⟩ := h
        subst h1; subst h2; subst h3; subst h4
        rw [ih pa sa hraux]
        cases fillMany bs pb sb with
        | error e => rfl
        | ok q3 => obtain ⟨p3, s3, out3, c3⟩ := q3; rfl

theorem flatten_zero_maps (ns : List Nat) :
    (ns.map (fun k => List.replicate k 0)).flatten = List.replicate ns.sum (0 : Nat) := by
  induction ns with
  | nil => rfl
  | cons k ns' ih =>
    simp only [List.map_cons, List.flatten_cons, List.sum_cons, ih]
    rw [← List.replicate_add]

/-- Claim C2: with a `Data` record buffered at `record_address` beyond
`read_bytes`, a sequence of fills that stays inside the gap followed by one
fill that closes it produces exactly `record_address - read_bytes` zero
bytes and then only payload bytes — the zero count is exact no matter how
the gap is chunked across calls. -/
theorem c2_exact_gap_fill {p : List (Except String Record)} {s : BinaryReader}
    {o m : Nat} {v : List Nat} {ns : List Nat}
    (hrec : s.record = some (.data o v)) (hpos : s.record_pos = 0)
    (hgap : s.read_bytes < (s.address + o) % u32Mod)
    (hns : s.read_bytes + ns.sum ≤ (s.address + o) % u32Mod)
    (hm1 : (s.address + o) % u32Mod ≤ s.read_bytes + ns.sum + m)
    (hm2 : s.read_bytes + ns.sum + m ≤ (s.address + o) % u32Mod + v.length) :
    ∃ s' outs cs, fillMany (ns ++ [m]) p s = .ok (p, s', outs, cs)
      ∧ outs.flatten
        = List.replicate ((s.address + o) % u32Mod - s.read_bytes) 0
          ++ v.take (s.read_bytes + ns.sum + m - (s.address + o) % u32Mod) := by
  have hfirst := fillMany_gap (o := o) (v := v) ns p s hrec hns
  obtain ⟨s2, hsecond⟩ := read_gap_close (p := p) (o := o) (m := m) (v := v)
    (s := { s with read_bytes := s.read_bytes + ns.sum })
    hrec hpos (by simp only []; omega) (by simp only []; omega) (by simp only []; omega)
  have hsingle : fillMany [m] p { s with read_bytes := s.read_bytes + ns.sum }
      = .ok (p, s2,
          [List.replicate ((s.address + o) % u32Mod - (s.read_bytes + ns.sum)) 0
            ++ v.take (s.read_bytes + ns.sum + m - (s.address + o) % u32Mod)], [m]) := by
    unfold fillMany
    rw [hsecond]
    unfold fillMany
    rfl
  have hall : fillMany (ns ++ [m]) p s
      = .ok (p, s2,
          (ns.map (fun k => List.replicate k 0))
            ++ [List.replicate ((s.address + o) % u32Mod - (s.read_bytes + ns.sum)) 0
                ++ v.take (s.read_bytes + ns.sum + m - (s.address + o) % u32Mod)],
          ns ++ [m]) := by
    rw [fillMany_append ns [m] p s hfirst, hsingle]
  refine ⟨s2, _, _, hall, ?_⟩
  rw [List.flatten_append, flatten_zero_maps]
  simp only [List.flatten_cons, List.flatten_nil, List.append_nil]
  rw [← List.append_assoc, ← List.replicate_add,
      show ns.sum + ((s.address + o) % u32Mod - (s.read_bytes + ns.sum))
        = (s.address + o) % u32Mod - s.read_bytes from by omega]

/-- Witness for C2: gap of 5 before payload `[7,8]`, chunked `[2,2]` then a
closing 3-byte fill: output flattens to five zeros then `[7,8]`. -/
theorem c2_exact_gap_fill_witness :
    ∃ s' outs cs, fillMany ([2, 2] ++ [3]) []
        { record := some (Record.data 5 [7, 8]), record_pos := 0, base_address := 0,
          address := 0, read_bytes := 0, start_address := none, underflow := false }
      = .ok ([], s', outs, cs)
      ∧ outs.flatten
        = List.replicate ((0 + 5) % u32Mod - 0) 0 ++ [7, 8].take (0 + [2, 2].sum + 3 - (0 + 5) % u32Mod) :=
  c2_exact_gap_fill rfl rfl (by decide) (by decide) (by decide) (by decide)

/-! ### Chunk-size invariance: splitting and merging of fills -/

theorem prependOut_nil
    {r : Except String (List (Except String Record) × BinaryReader × List Nat × Nat)} :
    prependOut [] r = r := by
  cases r with
  | error e => rfl
  | ok q => obtain ⟨p, s, o, t⟩ := q; simp [prependOut]

theorem prependOut_append {a b : List Nat}
    {r : Except String (List (Except String Record) × BinaryReader × List Nat × Nat)} :
    prependOut (a ++ b) r = prependOut a (prependOut b r) := by
  cases r with
  | error e => rfl
  | ok q => obtain ⟨p, s, o, t⟩ := q; simp [prependOut]

theorem procCompose_nil {r : ProcResult} : procCompose [] r = r := by
  cases r with
  | ret s o t => simp [procCompose]
  | cont s o t => simp [procCompose]

/-- Enlarging the buffer does not change a fall-through step: the `Data` arm
only falls through once gap and payload are exhausted, so the extra space is
just carried over. -/
theorem processData_mono_cont {s s1 : BinaryReader} {o : Nat} {v : List Nat}
    {sp t : Nat} {out : List Nat} (m : Nat)
    (h : processData s o v sp = .cont s1 out t) :
    processData s o v (sp + m) = .cont s1 out (t + m) := by
  rcases Nat.lt_or_ge s.read_bytes ((s.address + o) % u32Mod) with hgap | hgap
  · rcases le_or_lt sp ((s.address + o) % u32Mod - s.read_bytes) with hsp | hsp
    · rw [processData_gap_all hgap hsp] at h
      exact absurd h (by simp)
    · rcases le_or_lt (sp - ((s.address + o) % u32Mod - s.read_bytes))
          ((v.drop s.record_pos).length) with hlen | hlen
      · rw [processData_gap_fill hgap hsp hlen] at h
        exact absurd h (by simp)
      · rw [processData_gap_cont hgap hsp hlen] at h
        injection h with h1 h2 h3
        subst h1; subst h2; subst h3
        rw [processData_gap_cont hgap (by omega) (by omega)]
        congr 1
        omega
  · by_cases hsp0 : sp = 0
    · subst hsp0
      rw [processData_zero hgap] at h
      exact absurd h (by simp)
    · rcases le_or_lt sp ((v.drop s.record_pos).length) with hlen | hlen
      · rw [processData_nogap_fill hgap (Nat.pos_of_ne_zero hsp0) hlen] at h
        exact absurd h (by simp)
      · rw [processData_nogap_cont hgap hlen] at h
        injection h with h1 h2 h3
        subst h1; subst h2; subst h3
        rw [processData_nogap_cont hgap (by omega)]
        congr 1
        omega

/-- Enlarging the buffer does not change any fall-through loop-body step. -/
theorem processRecord_mono_cont {s s1 : BinaryReader} {sp t : Nat}
    {out : List Nat} (m : Nat)
    (h : processRecord s sp = .cont s1 out t) :
    processRecord s (sp + m) = .cont s1 out (t + m) := by
  cases hr : s.record with
  | none =>
    rw [processRecord_none hr] at h
    injection h with h1 h2 h3
    subst h1; subst h2; subst h3
    rw [processRecord_none hr]
  | some r =>
    cases r with
    | data o v =>
      rw [processRecord_data hr] at h
      rw [processRecord_data hr]
      exact processData_mono_cont m h
    | extendedSegmentAddress a =>
      rw [processRecord_esa hr] at h
      injection h with h1 h2 h3
      subst h1; subst h2; subst h3
      rw [processRecord_esa hr]
    | extendedLinearAddress a =>
      rw [processRecord_ela hr] at h
      injection h with h1 h2 h3
      subst h1; subst h2; subst h3
      rw [processRecord_ela hr]
    | startSegmentAddress cs ip =>
      rw [processRecord_ssa hr] at h
      injection h with h1 h2 h3
      subst h1; subst h2; subst h3
      rw [processRecord_ssa hr]
    | startLinearAddress a =>
      rw [processRecord_sla hr] at h
      injection h with h1 h2 h3
      subst h1; subst h2; subst h3
      rw [processRecord_sla hr]
    | endOfFile =>
      rw [processRecord_eof hr] at h
      exact absurd h (by simp)

/-- A short return is insensitive to extra buffer space: the loop stopped
because the stream ended, not because the buffer was full, so a bigger buffer
returns the same bytes, the same state and correspondingly more leftover. -/
theorem readGo_mono {p p' : List (Except String Record)} {s s' : BinaryReader}
    {sp sl : Nat} {out : List Nat} (m : Nat)
    (h : readGo p s sp = .ok (p', s', out, sl)) (hsl : 0 < sl) :
    readGo p s (sp + m) = .ok (p', s', out, sl + m) := by
  induction p generalizing s sp out sl p' s' with
  | nil =>
    unfold readGo at h
    cases hpr : processRecord s sp with
    | ret s1 o1 l1 =>
      rw [hpr] at h
      simp only [Except.ok.injEq, Prod.mk.injEq] at h
      obtain ⟨h1, h2, h3, h4⟩ := h
      subst h1; subst h2; subst h3; subst h4
      obtain ⟨he, he2, ho, hl⟩ := processRecord_ret_pos hpr hsl
      subst he; subst ho; subst hl
      exact readGo_eof he2
    | cont s1 o1 sp1 =>
      rw [hpr] at h
      simp only [Except.ok.injEq, Prod.mk.injEq] at h
      obtain ⟨h1, h2, h3, h4⟩ := h
      subst h1; subst h2; subst h3; subst h4
      exact readGo_cont_nil (processRecord_mono_cont m hpr)
  | cons a rest ih =>
    cases a with
    | error e =>
      unfold readGo at h
      cases hpr : processRecord s sp with
      | ret s1 o1 l1 =>
        rw [hpr] at h
        simp only [Except.ok.injEq, Prod.mk.injEq] at h
        obtain ⟨h1, h2, h3, h4⟩ := h
        subst h1; subst h2; subst h3; subst h4
        obtain ⟨he, he2, ho, hl⟩ := processRecord_ret_pos hpr hsl
        subst he; subst ho; subst hl
        exact readGo_eof he2
      | cont s1 o1 sp1 =>
        rw [hpr] at h
        exact absurd h (by simp)
    | ok r =>
      unfold readGo at h
      cases hpr : processRecord s sp with
      | ret s1 o1 l1 =>
        rw [hpr] at h
        simp only [Except.ok.injEq, Prod.mk.injEq] at h
        obtain ⟨h1, h2, h3, h4⟩ := h
        subst h1; subst h2; subst h3; subst h4
        obtain ⟨he, he2, ho, hl⟩ := processRecord_ret_pos hpr hsl
        subst he; subst ho; subst hl
        exact readGo_eof he2
      | cont s1 o1 sp1 =>
        rw [hpr] at h
        dsimp only at h
        cases hrec : readGo rest { s1 with record := some r } sp1 with
        | error e2 => rw [hrec] at h; simp [prependOut] at h
        | ok q =>
          obtain ⟨p2, s2, out2, sl2⟩ := q
          rw [hrec] at h
          simp only [prependOut, Except.ok.injEq, Prod.mk.injEq] at h
          obtain ⟨h1, h2, h3, h4⟩ := h
          subst h1; subst h2; subst h4
          rw [readGo_cont_ok (processRecord_mono_cont m hpr)]
          rw [ih hrec hsl]
          dsimp only [prependOut]
          rw [h3]

/-- Under the no-overflow bound, a full-buffer return of the `Data` arm
composes: processing with `sp + m` bytes of room equals processing with `sp`
bytes (which fills them all) followed by processing the leftover state with
`m` bytes, with the outputs concatenated.  This is exactly what fails when
`read_bytes` wraps at `2^32` between the two calls. -/
theorem processData_split {s s1 : BinaryReader} {o : Nat} {v : List Nat}
    {sp : Nat} {out1 : List Nat} (m : Nat)
    (hw : s.read_bytes + sp < u32Mod)
    (h : processData s o v sp = .ret s1 out1 0) :
    processData s o v (sp + m) = procCompose out1 (processData s1 o v m) := by
  have hra : (s.address + o) % u32Mod < u32Mod := Nat.mod_lt _ u32Mod_pos
  have hL : (v.drop s.record_pos).length = v.length - s.record_pos := by simp
  rcases Nat.lt_or_ge s.read_bytes ((s.address + o) % u32Mod) with hgap | hgap
  · rcases le_or_lt sp ((s.address + o) % u32Mod - s.read_bytes) with hsp | hsp
    · -- the first call ended inside the gap
      rw [processData_gap_all hgap hsp] at h
      injection h with h1 h2 h3
      subst h1; subst h2
      rcases Nat.lt_or_ge (s.read_bytes + sp) ((s.address + o) % u32Mod) with hlt | hge
      · -- gap still open for the leftover state
        rcases le_or_lt m ((s.address + o) % u32Mod - (s.read_bytes + sp)) with hm | hm
        · -- second call also stays inside the gap
          rw [processData_gap_all hgap
            (by omega : sp + m ≤ (s.address + o) % u32Mod - s.read_bytes)]
          rw [processData_gap_all (o := o) (v := v)
            (by simp only []; omega) (by simp only []; omega)]
          dsimp only [procCompose]
          rw [← List.replicate_add]
          rw [show s.read_bytes + (sp + m) = s.read_bytes + sp + m from by omega]
        · rcases le_or_lt (m - ((s.address + o) % u32Mod - (s.read_bytes + sp)))
              ((v.drop s.record_pos).length) with hv | hv
          · -- second call closes the gap and fills with payload
            rw [processData_gap_fill hgap (by omega) (by omega)]
            rw [processData_gap_fill (o := o) (v := v)
              (by simp only []; omega) (by simp only []; omega) (by simp only []; omega)]
            dsimp only [procCompose]
            rw [show sp + m - ((s.address + o) % u32Mod - s.read_bytes)
                  = m - ((s.address + o) % u32Mod - (s.read_bytes + sp)) from by omega]
            rw [show (s.address + o) % u32Mod - s.read_bytes
                  = sp + ((s.address + o) % u32Mod - (s.read_bytes + sp)) from by omega]
            rw [List.replicate_add, List.append_assoc]
          · -- second call closes the gap and exhausts the payload
            rw [processData_gap_cont hgap (by omega) (by omega)]
            rw [processData_gap_cont (o := o) (v := v)
              (by simp only []; omega) (by simp only []; omega) (by simp only []; omega)]
            dsimp only [procCompose]
            rw [show sp + m - ((s.address + o) % u32Mod - s.read_bytes)
                    - (v.drop s.record_pos).length
                  = m - ((s.address + o) % u32Mod - (s.read_bytes + sp))
                    - (v.drop s.record_pos).length from by omega]
            rw [show (s.address + o) % u32Mod - s.read_bytes
                  = sp + ((s.address + o) % u32Mod - (s.read_bytes + sp)) from by omega]
            rw [List.replicate_add, List.append_assoc]
      · -- the first call closed the gap exactly
        by_cases hm0 : m = 0
        · subst hm0
          rw [processData_zero (o := o) (v := v) (by simp only []; omega)]
          dsimp only [procCompose]
          rw [List.append_nil, Nat.add_zero]
          exact processData_gap_all hgap hsp
        · have hm0' : 0 < m := Nat.pos_of_ne_zero hm0
          rcases le_or_lt m ((v.drop s.record_pos).length) with hv | hv
          · -- payload fill on both sides
            rw [processData_gap_fill hgap (by omega) (by omega)]
            rw [processData_nogap_fill (o := o) (v := v)
              (by simp only []; omega) hm0' (by simp only []; omega)]
            dsimp only [procCompose]
            rw [show sp + m - ((s.address + o) % u32Mod - s.read_bytes) = m from by omega]
            rw [show (s.address + o) % u32Mod - s.read_bytes = sp from by omega]
            rw [show (s.address + o) % u32Mod + m = s.read_bytes + sp + m from by omega]
          · -- payload exhausted on both sides
            rw [processData_gap_cont hgap (by omega) (by omega)]
            rw [processData_nogap_cont (o := o) (v := v)
              (by simp only []; omega) (by simp only []; omega)]
            dsimp only [procCompose]
            rw [show sp + m - ((s.address + o) % u32Mod - s.read_bytes)
                    - (v.drop s.record_pos).length
                  = m - (v.drop s.record_pos).length from by omega]
            rw [show (s.address + o) % u32Mod - s.read_bytes = sp from by omega]
            rw [show (s.address + o) % u32Mod + (v.drop s.record_pos).length
                  = s.read_bytes + sp + (v.drop s.record_pos).length from by omega]
    · rcases le_or_lt (sp - ((s.address + o) % u32Mod - s.read_bytes))
          ((v.drop s.record_pos).length) with hlen | hlen
      · -- the first call closed the gap and filled the rest with payload
        rw [processData_gap_fill hgap hsp hlen] at h
        injection h with h1 h2 h3
        subst h1; subst h2
        have hnw : ((s.address + o) % u32Mod
              + (sp - ((s.address + o) % u32Mod - s.read_bytes))) % u32Mod
            = (s.address + o) % u32Mod
              + (sp - ((s.address + o) % u32Mod - s.read_bytes)) :=
          Nat.mod_eq_of_lt (by omega)
        rw [hnw]
        have hL2 : (v.drop (s.record_pos
              + (sp - ((s.address + o) % u32Mod - s.read_bytes)))).length
            = v.length - (s.record_pos
              + (sp - ((s.address + o) % u32Mod - s.read_bytes))) := by simp
        by_cases hm0 : m = 0
        · subst hm0
          rw [processData_zero (o := o) (v := v) (by simp only []; omega)]
          dsimp only [procCompose]
          rw [List.append_nil, Nat.add_zero, ← hnw]
          exact processData_gap_fill hgap hsp hlen
        · have hm0' : 0 < m := Nat.pos_of_ne_zero hm0
          rcases le_or_lt m ((v.drop s.record_pos).length
              - (sp - ((s.address + o) % u32Mod - s.read_bytes))) with hv | hv
          · -- payload fill on both sides
            rw [processData_gap_fill hgap (by omega) (by omega)]
            rw [processData_nogap_fill (o := o) (v := v)
              (by simp only []; omega) hm0' (by simp only []; omega)]
            dsimp only [procCompose]
            rw [show sp + m - ((s.address + o) % u32Mod - s.read_bytes)
                  = (sp - ((s.address + o) % u32Mod - s.read_bytes)) + m from by omega]
            rw [show s.record_pos
                    + ((sp - ((s.address + o) % u32Mod - s.read_bytes)) + m)
                  = s.record_pos
                    + (sp - ((s.address + o) % u32Mod - s.read_bytes)) + m from by omega]
            rw [show (s.address + o) % u32Mod
                    + ((sp - ((s.address + o) % u32Mod - s.read_bytes)) + m)
                  = (s.address + o) % u32Mod
                    + (sp - ((s.address + o) % u32Mod - s.read_bytes)) + m from by omega]
            rw [List.take_add, List.drop_drop]
            rw [List.append_assoc]
          · -- payload exhausted on both sides
            rw [processData_gap_cont hgap (by omega) (by omega)]
            rw [processData_nogap_cont (o := o) (v := v)
              (by simp only []; omega) (by simp only []; omega)]
            dsimp only [procCompose]
            rw [show m - (v.drop (s.record_pos
                    + (sp - ((s.address + o) % u32Mod - s.read_bytes)))).length
                  = sp + m - ((s.address + o) % u32Mod - s.read_bytes)
                    - (v.drop s.record_pos).length from by omega]
            rw [show (s.address + o) % u32Mod
                    + (sp - ((s.address + o) % u32Mod - s.read_bytes))
                    + (v.drop (s.record_pos
                      + (sp - ((s.address + o) % u32Mod - s.read_bytes)))).length
                  = (s.address + o) % u32Mod + (v.drop s.record_pos).length
                  from by omega]
            rw [List.append_assoc]
            rw [← List.drop_drop, List.take_append_drop]
      · -- the first call fell through: contradicts the full-buffer return
        rw [processData_gap_cont hgap hsp hlen] at h
        exact absurd h (by simp)
  · by_cases hsp0 : sp = 0
    · -- zero space, no gap: the first call was a no-op
      subst hsp0
      rw [processData_zero hgap] at h
      injection h with h1 h2 h3
      subst h1; subst h2
      rw [Nat.zero_add, procCompose_nil]
    · rcases le_or_lt sp ((v.drop s.record_pos).length) with hvl | hvl
      · -- the first call copied a buffer-filling payload prefix
        rw [processData_nogap_fill hgap (Nat.pos_of_ne_zero hsp0) hvl] at h
        injection h with h1 h2 h3
        subst h1; subst h2
        have hnw : (s.read_bytes + sp) % u32Mod = s.read_bytes + sp :=
          Nat.mod_eq_of_lt (by omega)
        rw [hnw]
        have hL2 : (v.drop (s.record_pos + sp)).length
            = v.length - (s.record_pos + sp) := by simp
        by_cases hm0 : m = 0
        · subst hm0
          rw [processData_zero (o := o) (v := v) (by simp only []; omega)]
          dsimp only [procCompose]
          rw [List.append_nil, Nat.add_zero, ← hnw]
          exact processData_nogap_fill hgap (Nat.pos_of_ne_zero hsp0) hvl
        · have hm0' : 0 < m := Nat.pos_of_ne_zero hm0
          rcases le_or_lt m ((v.drop s.record_pos).length - sp) with hv | hv
          · -- payload fill on both sides
            rw [processData_nogap_fill hgap (by omega) (by omega)]
            rw [processData_nogap_fill (o := o) (v := v)
              (by simp only []; omega) hm0' (by simp only []; omega)]
            dsimp only [procCompose]
            rw [show s.record_pos + (sp + m) = s.record_pos + sp + m from by omega]
            rw [show s.read_bytes + (sp + m) = s.read_bytes + sp + m from by omega]
            rw [List.take_add, List.drop_drop]
          · -- payload exhausted on both sides
            rw [processData_nogap_cont hgap (by omega)]
            rw [processData_nogap_cont (o := o) (v := v)
              (by simp only []; omega) (by simp only []; omega)]
            dsimp only [procCompose]
            rw [show m - (v.drop (s.record_pos + sp)).length
                  = sp + m - (v.drop s.record_pos).length from by omega]
            rw [show s.read_bytes + sp + (v.drop (s.record_pos + sp)).length
                  = s.read_bytes + (v.drop s.record_pos).length from by omega]
            rw [← List.drop_drop, List.take_append_drop]
      · -- the first call fell through: contradicts the full-buffer return
        rw [processData_nogap_cont hgap hvl] at h
        exact absurd h (by simp)

/-- Under the no-overflow bound, a full-buffer return of the loop body
composes with a follow-up step on the leftover state. -/
theorem processRecord_split {s s1 : BinaryReader} {sp : Nat} {out1 : List Nat}
    (m : Nat) (hw : s.read_bytes + sp < u32Mod)
    (h : processRecord s sp = .ret s1 out1 0) :
    processRecord s (sp + m) = procCompose out1 (processRecord s1 m) := by
  cases hr : s.record with
  | none =>
    rw [processRecord_none hr] at h
    exact absurd h (by simp)
  | some r =>
    cases r with
    | data o v =>
      rw [processRecord_data hr] at h
      have hrec : s1.record = some (.data o v) := by
        rw [processData_ret_record h, hr]
      rw [processRecord_data hr, processRecord_data hrec]
      exact processData_split m hw h
    | extendedSegmentAddress a =>
      rw [processRecord_esa hr] at h
      exact absurd h (by simp)
    | extendedLinearAddress a =>
      rw [processRecord_ela hr] at h
      exact absurd h (by simp)
    | startSegmentAddress cs ip =>
      rw [processRecord_ssa hr] at h
      exact absurd h (by simp)
    | startLinearAddress a =>
      rw [processRecord_sla hr] at h
      exact absurd h (by simp)
    | endOfFile =>
      rw [processRecord_eof hr] at h
      injection h with h1 h2 h3
      subst h1; subst h2; subst h3
      rw [Nat.zero_add, procCompose_nil]

/-- Under the no-overflow bound, a `read` call that fills its whole buffer
composes with a follow-up call: one big loop run equals the first run
followed by a second run on the state and producer it left behind. -/
theorem readGo_split {p p' : List (Except String Record)} {s s' : BinaryReader}
    {n : Nat} {out : List Nat} (m : Nat)
    (hw : s.read_bytes + n + m < u32Mod)
    (h : readGo p s n = .ok (p', s', out, 0)) :
    readGo p s (n + m) = prependOut out (readGo p' s' m) := by
  induction p generalizing s n out p' s' with
  | nil =>
    unfold readGo at h
    cases hpr : processRecord s n with
    | ret s1 o1 l1 =>
      rw [hpr] at h
      simp only [Except.ok.injEq, Prod.mk.injEq] at h
      obtain ⟨h1, h2, h3, h4⟩ := h
      subst h1; subst h2; subst h3; subst h4
      have hbig := processRecord_split m (by omega) hpr
      cases hps : processRecord s1 m with
      | ret s2 o2 t2 =>
        rw [hps] at hbig
        dsimp only [procCompose] at hbig
        rw [readGo_ret_any hbig, readGo_ret_any hps]
        dsimp only [prependOut]
      | cont s2 o2 t2 =>
        rw [hps] at hbig
        dsimp only [procCompose] at hbig
        rw [readGo_cont_nil hbig, readGo_cont_nil hps]
        dsimp only [prependOut]
    | cont s1 o1 sp1 =>
      rw [hpr] at h
      simp only [Except.ok.injEq, Prod.mk.injEq] at h
      obtain ⟨h1, h2, h3, h4⟩ := h
      subst h1; subst h2; subst h3; subst h4
      rw [readGo_cont_nil (processRecord_mono_cont m hpr)]
      rw [readGo_exhausted (processRecord_cont_record hpr)]
      dsimp only [prependOut]
      rw [Nat.zero_add, List.append_nil]
  | cons a rest ih =>
    cases a with
    | error e =>
      unfold readGo at h
      cases hpr : processRecord s n with
      | ret s1 o1 l1 =>
        rw [hpr] at h
        simp only [Except.ok.injEq, Prod.mk.injEq] at h
        obtain ⟨h1, h2, h3, h4⟩ := h
        subst h1; subst h2; subst h3; subst h4
        have hbig := processRecord_split m (by omega) hpr
        cases hps : processRecord s1 m with
        | ret s2 o2 t2 =>
          rw [hps] at hbig
          dsimp only [procCompose] at hbig
          rw [readGo_ret_any hbig, readGo_ret_any hps]
          dsimp only [prependOut]
        | cont s2 o2 t2 =>
          rw [hps] at hbig
          dsimp only [procCompose] at hbig
          rw [readGo_cont_err hbig, readGo_cont_err hps]
          dsimp only [prependOut]
      | cont s1 o1 sp1 =>
        rw [hpr] at h
        exact absurd h (by simp)
    | ok r =>
      unfold readGo at h
      cases hpr : processRecord s n with
      | ret s1 o1 l1 =>
        rw [hpr] at h
        simp only [Except.ok.injEq, Prod.mk.injEq] at h
        obtain ⟨h1, h2, h3, h4⟩ := h
        subst h1; subst h2; subst h3; subst h4
        have hbig := processRecord_split m (by omega) hpr
        cases hps : processRecord s1 m with
        | ret s2 o2 t2 =>
          rw [hps] at hbig
          dsimp only [procCompose] at hbig
          rw [readGo_ret_any hbig, readGo_ret_any hps]
          dsimp only [prependOut]
        | cont s2 o2 t2 =>
          rw [hps] at hbig
          dsimp only [procCompose] at hbig
          rw [readGo_cont_ok hbig, readGo_cont_ok hps]
          rw [← prependOut_append]
      | cont s1 o1 sp1 =>
        rw [hpr] at h
        dsimp only at h
        cases hrec : readGo rest { s1 with record := some r } sp1 with
        | error e2 => rw [hrec] at h; simp [prependOut] at h
        | ok q =>
          obtain ⟨p2, s2, out2, sl2⟩ := q
          rw [hrec] at h
          simp only [prependOut, Except.ok.injEq, Prod.mk.injEq] at h
          obtain ⟨h1, h2, h3, h4⟩ := h
          subst h1; subst h2; subst h3; subst h4
          have hrb1 : s1.read_bytes = s.read_bytes + o1.length :=
            processRecord_cont_rb hpr (by omega)
          have hlen1 : o1.length + sp1 = n := processRecord_cont_len hpr
          have hih := ih (by simp only []; omega) hrec
          rw [readGo_cont_ok (processRecord_mono_cont m hpr)]
          rw [hih, prependOut_append]

/-- Under the no-overflow bound, two consecutive `read` calls merge into one
call on the summed buffer size: same final producer and state, concatenated
bytes, and the counts add up. -/
theorem read_merge {p p1 p2 : List (Except String Record)} {s s1 s2 : BinaryReader}
    {n m c1 c2 : Nat} {out1 out2 : List Nat}
    (hw : s.read_bytes + n + m < u32Mod)
    (h1 : BinaryReader.read p s n = .ok (p1, s1, out1, c1))
    (h2 : BinaryReader.read p1 s1 m = .ok (p2, s2, out2, c2)) :
    BinaryReader.read p s (n + m) = .ok (p2, s2, out1 ++ out2, c1 + c2) := by
  obtain ⟨sl1, hg1, hc1, hlen1⟩ := read_ok_inv h1
  by_cases hsl1 : sl1 = 0
  · subst hsl1
    obtain ⟨sl2, hg2, hc2, hlen2⟩ := read_ok_inv h2
    have hsplit := readGo_split m hw hg1
    rw [hg2] at hsplit
    dsimp only [prependOut] at hsplit
    unfold BinaryReader.read
    rw [hsplit]
    dsimp only
    rw [show n + m - sl2 = c1 + c2 from by omega]
  · have hpos : 0 < sl1 := Nat.pos_of_ne_zero hsl1
    have hmono := readGo_mono m hg1 hpos
    have h2' : BinaryReader.read p1 s1 m = .ok (p1, s1, [], 0) := by
      rcases readGo_short hg1 hpos with heof | ⟨hp1, hnone⟩
      · exact read_eof heof
      · subst hp1
        exact read_exhausted hnone
    rw [h2'] at h2
    simp only [Except.ok.injEq, Prod.mk.injEq] at h2
    obtain ⟨h2a, h2b, h2c, h2d⟩ := h2
    subst h2a; subst h2b; subst h2c; subst h2d
    unfold BinaryReader.read
    rw [hmono]
    dsimp only
    rw [show n + m - (sl1 + m) = c1 + 0 from by omega, List.append_nil]

/-- A successful nonempty sequence of `read` calls collapses (under the
no-overflow bound) to a single `read` of the summed buffer sizes: same final
producer and state, the written chunks concatenate, and the counts add up. -/
theorem fillMany_merge {ns : List Nat} {p p' : List (Except String Record)}
    {s s' : BinaryReader} {outs : List (List Nat)} {cs : List Nat}
    (hne : ns ≠ [])
    (hw : s.read_bytes + ns.sum < u32Mod)
    (h : fillMany ns p s = .ok (p', s', outs, cs)) :
    BinaryReader.read p s ns.sum = .ok (p', s', outs.flatten, cs.sum) := by
  induction ns generalizing p s outs cs with
  | nil => exact absurd rfl hne
  | cons n ns' ih =>
    rw [fillMany_cons] at h
    cases hr : BinaryReader.read p s n with
    | error e => rw [hr] at h; simp at h
    | ok q =>
      obtain ⟨p1, s1, o1, c1⟩ := q
      rw [hr] at h
      dsimp only at h
      cases hf : fillMany ns' p1 s1 with
      | error e => rw [hf] at h; simp at h
      | ok q2 =>
        obtain ⟨q2p, q2s, q2o, q2c⟩ := q2
        rw [hf] at h
        simp only [Except.ok.injEq, Prod.mk.injEq] at h
        obtain ⟨h1, h2, h3, h4⟩ := h
        subst h1; subst h2; subst h3; subst h4
        by_cases hns' : ns' = []
        · subst hns'
          rw [fillMany_nil] at hf
          simp only [Except.ok.injEq, Prod.mk.injEq] at hf
          obtain ⟨hf1, hf2, hf3, hf4⟩ := hf
          subst hf1; subst hf2; subst hf3; subst hf4
          simp only [List.sum_cons, List.sum_nil, Nat.add_zero,
            List.flatten_cons, List.flatten_nil, List.append_nil]
          exact hr
        · obtain ⟨sl1, hg1, hc1, hlen1⟩ := read_ok_inv hr
          have hrb1 : s1.read_bytes = s.read_bytes + o1.length :=
            readGo_rb hg1 (by rw [List.sum_cons] at hw; omega)
          have hih := ih hns' (by rw [List.sum_cons] at hw; omega) hf
          have := read_merge (by rw [List.sum_cons] at hw; omega) hr hih
          simp only [List.sum_cons, List.flatten_cons]
          exact this

theorem cex_steps (k : Nat) :
    readGo cexStream BinaryReader.new k = readGo [] cexS k := by
  rw [show cexStream = Except.ok (Record.extendedSegmentAddress 1)
        :: [Except.ok (Record.extendedLinearAddress 65535),
            Except.ok (Record.data 65535 (List.replicate 18 1))] from rfl]
  rw [readGo_cont_ok (processRecord_none rfl)]
  rw [readGo_cont_ok (processRecord_esa rfl)]
  rw [readGo_cont_ok (processRecord_ela rfl)]
  rw [prependOut_nil, prependOut_nil, prependOut_nil]
  exact congrFun (congrArg (readGo []) (by decide)) k

/-- A single fill of `2^32 + 1` bytes on the counterexample stream: all
`2^32 - 17` gap zeros, then the full 18-byte payload; `read_bytes` wraps
to `1` but nothing is left to misread. -/
theorem cex_big :
    BinaryReader.read cexStream BinaryReader.new 4294967297
      = .ok ([], { cexS with record_pos := 18, read_bytes := 1 },
             List.replicate 4294967279 0 ++ List.replicate 18 1, 4294967297) := by
  have hpd := @processData_gap_fill cexS 65535 (List.replicate 18 1) 4294967297
    (by decide) (by decide) (by decide)
  have hpr : processRecord cexS 4294967297
      = .ret { cexS with
                 record_pos := cexS.record_pos
                   + (4294967297 - ((cexS.address + 65535) % u32Mod - cexS.read_bytes))
                 read_bytes := ((cexS.address + 65535) % u32Mod
                   + (4294967297 - ((cexS.address + 65535) % u32Mod - cexS.read_bytes)))
                     % u32Mod }
            (List.replicate ((cexS.address + 65535) % u32Mod - cexS.read_bytes) 0
              ++ ((List.replicate 18 1).drop cexS.record_pos).take
                   (4294967297 - ((cexS.address + 65535) % u32Mod - cexS.read_bytes))) 0 := by
    rw [processRecord_data rfl]
    exact hpd
  have hgo := (cex_steps 4294967297).trans (readGo_ret_any hpr)
  have hres := read_of_readGo hgo
  rw [show (cexS.address + 65535) % u32Mod - cexS.read_bytes = 4294967279 from by decide]
    at hres
  rw [show (4294967297 - 4294967279 : Nat) = 18 from by decide] at hres
  rw [show cexS.record_pos + 18 = 18 from by decide] at hres
  rw [show ((cexS.address + 65535) % u32Mod + 18) % u32Mod = 1 from by decide] at hres
  rw [show (List.replicate 18 1).drop cexS.record_pos = List.replicate 18 (1 : Nat)
        from by decide] at hres
  rw [show (List.replicate 18 (1 : Nat)).take 18 = List.replicate 18 (1 : Nat)
        from by decide] at hres
  rw [show (4294967297 - 0 : Nat) = 4294967297 from by decide] at hres
  exact hres

/-- The first fill of the split run: `2^32` bytes, leaving one payload byte;
`read_bytes` wraps to exactly `0`, behind the record address again. -/
theorem cex_split1 :
    BinaryReader.read cexStream BinaryReader.new 4294967296
      = .ok ([], { cexS with record_pos := 17, read_bytes := 0 },
             List.replicate 4294967279 0 ++ List.replicate 17 1, 4294967296) := by
  have hpd := @processData_gap_fill cexS 65535 (List.replicate 18 1) 4294967296
    (by decide) (by decide) (by decide)
  have hpr : processRecord cexS 4294967296
      = .ret { cexS with
                 record_pos := cexS.record_pos
                   + (4294967296 - ((cexS.address + 65535) % u32Mod - cexS.read_bytes))
                 read_bytes := ((cexS.address + 65535) % u32Mod
                   + (4294967296 - ((cexS.address + 65535) % u32Mod - cexS.read_bytes)))
                     % u32Mod }
            (List.replicate ((cexS.address + 65535) % u32Mod - cexS.read_bytes) 0
              ++ ((List.replicate 18 1).drop cexS.record_pos).take
                   (4294967296 - ((cexS.address + 65535) % u32Mod - cexS.read_bytes))) 0 := by
    rw [processRecord_data rfl]
    exact hpd
  have hgo := (cex_steps 4294967296).trans (readGo_ret_any hpr)
  have hres := read_of_readGo hgo
  rw [show (cexS.address + 65535) % u32Mod - cexS.read_bytes = 4294967279 from by decide]
    at hres
  rw [show (4294967296 - 4294967279 : Nat) = 17 from by decide] at hres
  rw [show cexS.record_pos + 17 = 17 from by decide] at hres
  rw [show ((cexS.address + 65535) % u32Mod + 17) % u32Mod = 0 from by decide] at hres
  rw [show (List.replicate 18 1).drop cexS.record_pos = List.replicate 18 (1 : Nat)
        from by decide] at hres
  rw [show (List.replicate 18 (1 : Nat)).take 17 = List.replicate 17 (1 : Nat)
        from by decide] at hres
  rw [show (4294967296 - 0 : Nat) = 4294967296 from by decide] at hres
  exact hres

/-- The second fill of the split run: with `read_bytes` wrapped to `0`, the
gap test fires again and the call emits a zero byte instead of the last
payload byte. -/
theorem cex_split2 :
    BinaryReader.read [] { cexS with record_pos := 17, read_bytes := 0 } 1
      = .ok ([], { cexS with record_pos := 17, read_bytes := 1 }, [0], 1) := by
  have hpd := @processData_gap_all { cexS with record_pos := 17, read_bytes := 0 }
    65535 (List.replicate 18 1) 1 (by decide) (by decide)
  have hpr : processRecord { cexS with record_pos := 17, read_bytes := 0 } 1
      = .ret { cexS with record_pos := 17, read_bytes := 1 }
            (List.replicate 1 0) 0 := by
    rw [processRecord_data rfl]
    exact hpd
  have hres := read_of_readGo (@readGo_ret_any [] _ 1 _ _ _ hpr)
  rw [show List.replicate 1 (0 : Nat) = [0] from rfl] at hres
  rw [show (1 - 0 : Nat) = 1 from rfl] at hres
  exact hres

/-- Claim C3, counterexample: `fill` is not chunk-size-invariant.  First, at
total `0`, the empty splitting succeeds while the splitting `[0]` surfaces
the producer error (a zero-length call still pulls a record).  Second, two
splittings of the same total `2^32 + 1` on the same stream both succeed but
return different bytes: in the finer splitting `read_bytes` wraps to `0` at
the end of the first call, the `record_address > read_bytes` gap test fires
again, and the final byte comes out as a zero instead of the last payload
byte. -/
theorem c3_counterexample :
    (List.sum ([] : List Nat) = List.sum [0]
      ∧ fillMany [] [Except.error "x"] BinaryReader.new
          = .ok ([Except.error "x"], BinaryReader.new, [], [])
      ∧ fillMany [0] [Except.error "x"] BinaryReader.new
          = .error ("Error reading hex file: " ++ "x"))
  ∧ (List.sum [4294967297] = List.sum [4294967296, 1]
      ∧ (∃ t, fillMany [4294967297] cexStream BinaryReader.new
          = .ok ([], t, [List.replicate 4294967279 0 ++ List.replicate 18 1],
                 [4294967297]))
      ∧ (∃ t, fillMany [4294967296, 1] cexStream BinaryReader.new
          = .ok ([], t, [List.replicate 4294967279 0 ++ List.replicate 17 1, [0]],
                 [4294967296, 1]))
      ∧ [List.replicate 4294967279 0 ++ List.replicate 18 1].flatten
          ≠ [List.replicate 4294967279 0 ++ List.replicate 17 1, [0]].flatten) := by
  refine ⟨⟨by decide, by decide, by decide⟩, by decide, ⟨?_, ?_⟩, ⟨?_, ?_⟩, ?_⟩
  · exact { cexS with record_pos := 18, read_bytes := 1 }
  · rw [fillMany_cons, cex_big]
    rfl
  · exact { cexS with record_pos := 17, read_bytes := 1 }
  · rw [fillMany_cons, cex_split1]
    dsimp only
    rw [fillMany_cons, cex_split2]
    rfl
  · intro heq
    simp only [List.flatten_cons, List.flatten_nil, List.append_nil,
      List.append_assoc] at heq
    have h2 := List.append_cancel_left heq
    rw [show (18 : Nat) = 17 + 1 from rfl, List.replicate_succ'] at h2
    have h3 := List.append_cancel_left h2
    exact absurd h3 (by decide)

/-- Claim C3, amended: under the no-overflow bound on total bytes emitted,
`fill` is chunk-size-invariant — any two successful splittings of the same
total into buffer sizes yield the same concatenated bytes. -/
theorem c3_amended {a b : List Nat} {p q r : List (Except String Record)}
    {s t u : BinaryReader} {x y : List (List Nat)} {c d : List Nat}
    (hw : s.read_bytes + a.sum < u32Mod)
    (he : a.sum = b.sum)
    (h1 : fillMany a p s = .ok (q, t, x, c))
    (h2 : fillMany b p s = .ok (r, u, y, d)) :
    x.flatten = y.flatten := by
  by_cases ha : a = []
  · subst ha
    rw [fillMany_nil] at h1
    simp only [Except.ok.injEq, Prod.mk.injEq] at h1
    obtain ⟨h1a, h1b, h1c, h1d⟩ := h1
    subst h1c
    by_cases hb : b = []
    · subst hb
      rw [fillMany_nil] at h2
      simp only [Except.ok.injEq, Prod.mk.injEq] at h2
      obtain ⟨h2a, h2b, h2c, h2d⟩ := h2
      subst h2c
      rfl
    · have hm2 := fillMany_merge hb (by omega) h2
      rw [← he] at hm2
      simp only [List.sum_nil] at hm2
      obtain ⟨hout, -⟩ := read_zero_ok hm2
      rw [hout]
      rfl
  · by_cases hb : b = []
    · subst hb
      rw [fillMany_nil] at h2
      simp only [Except.ok.injEq, Prod.mk.injEq] at h2
      obtain ⟨h2a, h2b, h2c, h2d⟩ := h2
      subst h2c
      have hm1 := fillMany_merge ha hw h1
      rw [show a.sum = 0 from by rw [he]; rfl] at hm1
      obtain ⟨hout, -⟩ := read_zero_ok hm1
      rw [hout]
      rfl
    · have hm1 := fillMany_merge ha hw h1
      have hm2 := fillMany_merge hb (by omega) h2
      rw [he] at hm1
      rw [hm2] at hm1
      simp only [Except.ok.injEq, Prod.mk.injEq] at hm1
      exact hm1.2.2.1.symm

/-- Witness for the amended C3: splitting a 3-byte payload as `[2, 1]` or as
`[3]` yields the same bytes. -/
theorem c3_amended_witness :
    ([[5, 6], [7]] : List (List Nat)).flatten
      = ([[5, 6, 7]] : List (List Nat)).flatten :=
  c3_amended (a := [2, 1]) (b := [3])
    (p := [Except.ok (Record.data 0 [5, 6, 7]), Except.ok Record.endOfFile])
    (s := BinaryReader.new) (by decide) (by decide) rfl rfl

/-- Claim C4, counterexample: the claim says the first address-setting record
processed while zero bytes have been emitted fixes `base_address` once and
for all.  But the guard in `update_address` is `base_address == 0 &&
read_bytes == 0`, not "first record": after `ExtendedLinearAddress(0)` (whose
computed value is `0`), a second address record processed with still zero
bytes emitted overwrites `base_address` (here to `0x10000`), contradicting
both "fixes base_address to its computed value \x7b0\x7d" and "never changing
base_address again". -/
theorem c4_counterexample :
    BinaryReader.read
        [Except.ok (Record.extendedLinearAddress 0),
         Except.ok (Record.extendedLinearAddress 1)]
        BinaryReader.new 0
      = .ok ([], { BinaryReader.new with base_address := 65536 }, [], 0)
    ∧ (65536 : Nat) ≠ 0 := by
  constructor
  · decide
  · decide

/-- Claim C4, amended: an address-setting record sets `base_address` to its
computed value exactly when, at processing time, `base_address = 0` and
`read_bytes = 0` (so records whose computed value is `0` leave the base
unfixed); in every other situation it sets `address` to the wrapping 32-bit
difference `value - base_address` and leaves `base_address` alone; and once
`base_address` is nonzero, no `read` call ever changes it again. -/
theorem c4_amended :
    (∀ (s : BinaryReader) (addr : Nat), s.base_address = 0 → s.read_bytes = 0 →
      update_address s addr = { s with base_address := addr })
    ∧ (∀ (s : BinaryReader) (addr : Nat), ¬(s.base_address = 0 ∧ s.read_bytes = 0) →
      (update_address s addr).base_address = s.base_address
      ∧ (update_address s addr).address = (addr + (u32Mod - s.base_address)) % u32Mod)
    ∧ (∀ (p p' : List (Except String Record)) (s s' : BinaryReader) (n c : Nat)
        (out : List Nat), s.base_address ≠ 0 →
        BinaryReader.read p s n = .ok (p', s', out, c) →
        s'.base_address = s.base_address) := by
  refine ⟨?_, ?_, ?_⟩
  · intro s addr h1 h2
    unfold update_address
    rw [if_pos ⟨h1, h2⟩]
  · intro s addr h
    unfold update_address
    rw [if_neg h]
    exact ⟨rfl, rfl⟩
  · intro p p' s s' n c out hb h
    obtain ⟨sl, hg, -, -⟩ := read_ok_inv h
    exact readGo_base hg hb

/-- Witness for the amended C4 at concrete inputs: a fresh state gets its
base set; a state with nonzero base keeps it across a `read` that processes
another address record. -/
theorem c4_amended_witness :
    (update_address BinaryReader.new 5 = { BinaryReader.new with base_address := 5 })
    ∧ ({ record := none, record_pos := 0, base_address := 7, address := 131065,
         read_bytes := 0, start_address := none, underflow := false } : BinaryReader).base_address
      = ({ record := none, record_pos := 0, base_address := 7, address := 0,
           read_bytes := 0, start_address := none, underflow := false } : BinaryReader).base_address :=
  ⟨c4_amended.1 BinaryReader.new 5 rfl rfl,
   c4_amended.2.2 [Except.ok (Record.extendedLinearAddress 2)] []
     { record := none, record_pos := 0, base_address := 7, address := 0,
       read_bytes := 0, start_address := none, underflow := false }
     { record := none, record_pos := 0, base_address := 7, address := 131065,
       read_bytes := 0, start_address := none, underflow := false }
     0 0 [] (by decide) (by decide)⟩

/-- Claim C5, counterexample: the claim asserts `count_written <
buffer.length` happens exactly once.  On the stream `[Data 0 [1], EndOfFile]`
the first fill of a 2-byte buffer returns `1 < 2` (terminal call), and the
next fill of a 2-byte buffer returns `0 < 2` — a second short return, so
"exactly once" is false as stated. -/
theorem c5_counterexample :
    fillMany [2, 2] [Except.ok (Record.data 0 [1]), Except.ok Record.endOfFile]
        BinaryReader.new
      = .ok ([], { record := some Record.endOfFile, record_pos := 0, base_address := 0,
                   address := 0, read_bytes := 1, start_address := none, underflow := false },
             [[1], []], [1, 0])
    ∧ 1 < 2 ∧ 0 < 2 := by
  refine ⟨?_, ?_, ?_⟩ <;> decide

/-- Claim C5, amended: a short return (`count_written < buffer.length`) only
happens on a call that reached `EndOfFile` or producer exhaustion, and after
any such call the stream is permanently closed — every later `fill` returns
`0`, does not error, consumes nothing from the producer, and leaves the
converter state untouched (in particular no record is pulled after an
`EndOfFile` has been seen). -/
theorem c5_amended {p p' : List (Except String Record)} {s s' : BinaryReader}
    {n c : Nat} {out : List Nat}
    (h : BinaryReader.read p s n = .ok (p', s', out, c)) (hc : c < n) :
    ∀ m, BinaryReader.read p' s' m = .ok (p', s', [], 0) := by
  intro m
  obtain ⟨sl, hg, hceq, hlen⟩ := read_ok_inv h
  have hsl : 0 < sl := by omega
  rcases readGo_short hg hsl with heof | ⟨hp, hrec⟩
  · exact read_eof heof
  · subst hp
    exact read_exhausted hrec

/-- Witness for the amended C5: after the terminal call on `[EndOfFile]`
(count `0 < 2`), a later 3-byte fill returns `0` and changes nothing. -/
theorem c5_amended_witness :
    BinaryReader.read []
        { record := some Record.endOfFile, record_pos := 0, base_address := 0,
          address := 0, read_bytes := 0, start_address := none, underflow := false } 3
      = .ok ([], { record := some Record.endOfFile, record_pos := 0, base_address := 0,
                   address := 0, read_bytes := 0, start_address := none, underflow := false },
             [], 0) :=
  @c5_amended [Except.ok Record.endOfFile] [] BinaryReader.new
    { record := some Record.endOfFile, record_pos := 0, base_address := 0,
      address := 0, read_bytes := 0, start_address := none, underflow := false }
    2 0 [] (by decide) (by decide) 3

/-- Claim C6: if the producer reports an error, the `fill` call that first
observes it (here: no record is buffered, so the error item is the next thing
pulled) fails with the decode error wrapping the producer's message — an
`Err` return, not a panic and not silent truncation. -/
theorem c6_producer_error {e : String} {rest : List (Except String Record)}
    {s : BinaryReader} {n : Nat} (h : s.record = none) :
    BinaryReader.read (.error e :: rest) s n
      = .error ("Error reading hex file: " ++ e) := by
  apply read_error_of_readGo
  unfold readGo
  rw [processRecord_none h]

/-- Witness for C6 on a fresh converter and a first malformed line. -/
theorem c6_producer_error_witness :
    BinaryReader.new.record = none
    ∧ BinaryReader.read [Except.error "bad checksum"] BinaryReader.new 4
      = .error ("Error reading hex file: " ++ "bad checksum") :=
  ⟨rfl, @c6_producer_error "bad checksum" [] BinaryReader.new 4 rfl⟩

/-- Claim C7: the captured entry point after any successful `fill` is the
left fold of "start-address records overwrite, everything else is ignored"
over the records processed by the call (the buffered one, then every record
consumed from the producer).  Hence a processed `StartLinearAddress v` yields
`Some (Linear v)`, the last of several start-address records wins, and the
field stays `None` when no start-address record has been processed. -/
theorem c7_start_address {p p' : List (Except String Record)} {s s' : BinaryReader}
    {n c : Nat} {out : List Nat}
    (h : BinaryReader.read p s n = .ok (p', s', out, c)) :
    ∃ recs : List Record, p = recs.map Except.ok ++ p' ∧
      s'.start_address = recs.foldl updStart (updStartO s.start_address s.record) := by
  obtain ⟨sl, hg, -, -⟩ := read_ok_inv h
  exact readGo_start hg

/-- Witness for C7: two start-address records followed by `EndOfFile`; the
fold says the last one wins (`Linear 0x08000000`). -/
theorem c7_start_address_witness :
    (∃ recs : List Record,
      ([Except.ok (Record.startSegmentAddress 1 2),
        Except.ok (Record.startLinearAddress 134217728),
        Except.ok Record.endOfFile] : List (Except String Record))
        = recs.map Except.ok ++ []
      ∧ ({ record := some Record.endOfFile, record_pos := 0, base_address := 0,
           address := 0, read_bytes := 0,
           start_address := some (StartAddress.linear 134217728),
           underflow := false } : BinaryReader).start_address
        = recs.foldl updStart (updStartO BinaryReader.new.start_address BinaryReader.new.record)) :=
  @c7_start_address
    [Except.ok (Record.startSegmentAddress 1 2),
     Except.ok (Record.startLinearAddress 134217728),
     Except.ok Record.endOfFile] [] BinaryReader.new
    { record := some Record.endOfFile, record_pos := 0, base_address := 0,
      address := 0, read_bytes := 0,
      start_address := some (StartAddress.linear 134217728), underflow := false }
    5 0 [] (by decide)

/-- Claim C8, counterexample: a zero-length fill is claimed to consume no
input and leave the state unchanged; in fact with no buffered record the loop
still pulls records — here a `StartLinearAddress` is consumed from the
producer and captured before the call returns `0`. -/
theorem c8_counterexample :
    BinaryReader.read [Except.ok (Record.startLinearAddress 7)] BinaryReader.new 0
      = .ok ([], { BinaryReader.new with start_address := some (StartAddress.linear 7) },
             [], 0)
    ∧ ({ BinaryReader.new with start_address := some (StartAddress.linear 7) } : BinaryReader)
      ≠ BinaryReader.new
    ∧ ([] : List (Except String Record)) ≠ [Except.ok (Record.startLinearAddress 7)] := by
  refine ⟨?_, ?_, ?_⟩ <;> decide

/-- Claim C8, amended: a zero-length fill writes no bytes and, when it does
not fail, returns count `0`; but it may pull and process records from the
producer (address and start-address records, up to buffering the next `Data`
or `EndOfFile` record, exhaustion, or an error). -/
theorem c8_amended {p p' : List (Except String Record)} {s s' : BinaryReader}
    {c : Nat} {out : List Nat}
    (h : BinaryReader.read p s 0 = .ok (p', s', out, c)) : out = [] ∧ c = 0 :=
  read_zero_ok h

/-- Witness for the amended C8 on the counterexample's stream. -/
theorem c8_amended_witness : ([] : List Nat) = [] ∧ (0 : Nat) = 0 :=
  @c8_amended [Except.ok (Record.startLinearAddress 7)] [] BinaryReader.new
    { BinaryReader.new with start_address := some (StartAddress.linear 7) }
    0 [] (by decide)

/-- Claim C9: a `Data` record whose computed `record_address` is at or behind
`read_bytes` (backward-seeking or overlapping) triggers no gap-filling, no
error and no wrap of the ghost underflow flag: its payload is copied at the
current output position exactly as if it were contiguous. -/
theorem c9_backward_record {p : List (Except String Record)} {s : BinaryReader}
    {o n : Nat} {v : List Nat}
    (hrec : s.record = some (.data o v)) (hpos : s.record_pos = 0)
    (hback : (s.address + o) % u32Mod ≤ s.read_bytes) (hn : n ≤ v.length)
    (hrb : s.read_bytes < u32Mod) :
    ∃ s', BinaryReader.read p s n = .ok (p, s', v.take n, n)
      ∧ s'.record = some (.data o v) ∧ s'.underflow = s.underflow
      ∧ s'.read_bytes = (s.read_bytes + n) % u32Mod := by
  by_cases hn0 : n = 0
  case pos =>
    subst hn0
    have hpr : processRecord s 0 = .ret s [] 0 := by
      rw [processRecord_data hrec]
      exact processData_zero hback
    refine ⟨s, ?_, hrec, rfl, ?_⟩
    · have := read_of_readGo (readGo_ret_any hpr (p := p))
      simpa using this
    · rw [Nat.add_zero, Nat.mod_eq_of_lt hrb]
  case neg =>
    have hvlen : n ≤ (v.drop s.record_pos).length := by
      rw [hpos]
      simpa using hn
    have hpd := processData_nogap_fill (v := v) hback (Nat.pos_of_ne_zero hn0) hvlen
    have hpr : processRecord s n
        = .ret { s with record_pos := s.record_pos + n,
                        read_bytes := (s.read_bytes + n) % u32Mod }
              ((v.drop s.record_pos).take n) 0 := by
      rw [processRecord_data hrec]
      exact hpd
    rw [hpos] at hpr
    simp only [Nat.zero_add, List.drop_zero] at hpr
    refine ⟨{ s with record_pos := n, read_bytes := (s.read_bytes + n) % u32Mod },
      ?_, hrec, rfl, rfl⟩
    have := read_of_readGo (readGo_ret_any hpr (p := p))
    simpa using this

/-- Witness for C9: a loaded `Data` record at address 0 with 2 bytes already
emitted copies its payload immediately, with no zeros and no error. -/
theorem c9_backward_record_witness :
    ∃ s', BinaryReader.read []
        { record := some (Record.data 0 [5, 6, 7]), record_pos := 0, base_address := 0,
          address := 0, read_bytes := 2, start_address := none, underflow := false } 2
      = .ok ([], s', ([5, 6, 7] : List Nat).take 2, 2)
      ∧ s'.record = some (Record.data 0 [5, 6, 7]) ∧ s'.underflow = false
      ∧ s'.read_bytes = (2 + 2) % u32Mod :=
  c9_backward_record (p := []) rfl rfl (by decide) (by decide) (by decide)

/-- Claim C10: the offset update after the base is fixed is the unguarded
`u32` subtraction `addr - base_address`.  First conjunct: an update whose
computed value is at least the current base never sets the ghost underflow
flag, so runs satisfying the claimed precondition stay underflow-free at
every such update.  Second conjunct: a concrete stream violating the
precondition (`ELA 2` fixes the base at `0x20000`, then `ELA 1` computes
`0x10000 < 0x20000`) makes the subtraction underflow — the flag is set and
`address` holds the wrapped value `0x10000 - 0x20000 mod 2^32`. -/
theorem c10_unguarded_subtraction :
    (∀ (s : BinaryReader) (addr : Nat), s.underflow = false →
      s.base_address ≤ addr → (update_address s addr).underflow = false)
    ∧ BinaryReader.read
        [Except.ok (Record.extendedLinearAddress 2),
         Except.ok (Record.extendedLinearAddress 1)]
        BinaryReader.new 0
      = .ok ([], { record := none, record_pos := 0, base_address := 131072,
                   address := 4294901760, read_bytes := 0, start_address := none,
                   underflow := true }, [], 0) := by
  constructor
  · intro s addr hu hle
    unfold update_address
    split
    case isTrue => simpa using hu
    case isFalse =>
      simp only []
      rw [if_neg (by omega)]
      exact hu
  · decide

/-- Witness for the universally quantified half of C10. -/
theorem c10_unguarded_subtraction_witness :
    (update_address
      { record := none, record_pos := 0, base_address := 131072, address := 0,
        read_bytes := 5, start_address := none, underflow := false } 131073).underflow
      = false :=
  c10_unguarded_subtraction.1
    { record := none, record_pos := 0, base_address := 131072, address := 0,
      read_bytes := 5, start_address := none, underflow := false } 131073 rfl (by decide)

/-- The model reproduces the crate's own unit test `test_binary_reader`:
the first 12-byte read returns the first twelve payload bytes. -/
theorem read_matches_crate_test :
    BinaryReader.read [Except.ok (Record.extendedLinearAddress 2048),
          Except.ok (Record.data 0 [240, 255, 0, 16, 41, 186, 5, 8, 109, 68, 5, 8, 221, 230, 1, 8])]
      BinaryReader.new 12 =
    .ok ([], { record := some (Record.data 0 [240, 255, 0, 16, 41, 186, 5, 8, 109, 68, 5, 8, 221, 230, 1, 8]),
               record_pos := 12, base_address := 134217728, address := 0, read_bytes := 12,
               start_address := none, underflow := false },
         [240, 255, 0, 16, 41, 186, 5, 8, 109, 68, 5, 8], 12) := by decide

/-- The model reproduces the second read of `test_binary_reader`: a 12-byte
buffer gets the remaining 4 bytes and the count 4. -/
theorem fillMany_matches_crate_test :
    fillMany [12, 12]
      [Except.ok (Record.extendedLinearAddress 2048),
       Except.ok (Record.data 0 [240, 255, 0, 16, 41, 186, 5, 8, 109, 68, 5, 8, 221, 230, 1, 8])]
      BinaryReader.new
    = .ok ([], { record := none, record_pos := 0, base_address := 134217728, address := 0,
                 read_bytes := 16, start_address := none, underflow := false },
           [[240, 255, 0, 16, 41, 186, 5, 8, 109, 68, 5, 8], [221, 230, 1, 8]], [12, 4]) := by decide
